import Mathlib

/-!
# Verification of `stacked_quantile`

A shallow embedding of the `stacked_quantile` package
(`src/stacked_quantile/main.py` and its typed numpy shims in
`src/stacked_quantile/typed_np_functions.py`) over exact rational
arithmetic, together with theorems settling the specification's claims.

Values and weights are modelled as `List ℚ`; a possibly-scalar numpy
`ArrayLike` argument is modelled by the `ArrayLike` sum type.  The
`ValueError`s raised by the Python code are modelled by the `SQError`
type, one constructor per distinct error message.
-/

/-- The distinct failure modes of the library (each `raise ValueError(msg)`
in `main.py`, one constructor per distinct message). -/
inductive SQError where
  /-- "values and weights must be at least 1-dimensional" /
      "values and weights must be the same length" /
      "values and weights must have the same shape up to the last axis" -/
  | ShapeError
  /-- "values array is empty" -/
  | EmptyInputError
  /-- "weights must be non-negative" -/
  | NegativeWeightError
  /-- "quantile must be in interval [0, 1]" -/
  | QuantileRangeError
  deriving DecidableEq, Repr

/-- A numpy `ArrayLike` argument after `np.asarray`: either a
zero-dimensional scalar or a one-dimensional vector of rationals. -/
inductive ArrayLike where
  | scalar (x : ℚ)
  | vec (xs : List ℚ)
  deriving DecidableEq

/-- The index comparison realised by a stable argsort: indices are ordered
by value first, and ties between equal values by original position. -/
def argsortLe (xs : List ℚ) (i j : ℕ) : Prop :=
  xs.getD i 0 < xs.getD j 0 ∨ (xs.getD i 0 = xs.getD j 0 ∧ i ≤ j)

instance (xs : List ℚ) : DecidableRel (argsortLe xs) := fun i j => by
  unfold argsortLe; infer_instance

instance (xs : List ℚ) : IsTotal ℕ (argsortLe xs) :=
  ⟨fun i j => by
    unfold argsortLe
    rcases lt_trichotomy (xs.getD i 0) (xs.getD j 0) with h | h | h
    · exact Or.inl (Or.inl h)
    · rcases Nat.le_total i j with hij | hij
      · exact Or.inl (Or.inr ⟨h, hij⟩)
      · exact Or.inr (Or.inr ⟨h.symm, hij⟩)
    · exact Or.inr (Or.inl h)⟩

instance (xs : List ℚ) : IsTrans ℕ (argsortLe xs) :=
  ⟨fun i j k hij hjk => by
    rcases hij with h1 | ⟨h1, h1'⟩ <;> rcases hjk with h2 | ⟨h2, h2'⟩
    · exact Or.inl (h1.trans h2)
    · exact Or.inl (h2 ▸ h1)
    · exact Or.inl (h1 ▸ h2)
    · exact Or.inr ⟨h1.trans h2, h1'.trans h2'⟩⟩

instance (xs : List ℚ) : IsAntisymm ℕ (argsortLe xs) :=
  ⟨fun i j hij hji => by
    rcases hij with h1 | ⟨h1, h1'⟩ <;> rcases hji with h2 | ⟨h2, h2'⟩
    · exact absurd (h1.trans h2) (lt_irrefl _)
    · exact absurd h1 (h2 ▸ lt_irrefl _)
    · exact absurd h2 (h1 ▸ lt_irrefl _)
    · exact Nat.le_antisymm h1' h2'⟩

/-- Modelled from the spec: `np_argsort` in `typed_np_functions.py` is a
shim over `np.argsort`, whose sorting algorithm is external library code
not present in this repository; the spec (§4.2 step 2, §9) requires the
stable sort-order permutation, which is exactly the permutation of
`0, ..., n-1` sorted by value with ties broken by original position. -/
def np_argsort (xs : List ℚ) : List ℕ :=
  List.insertionSort (argsortLe xs) (List.range xs.length)

/-- `np.cumsum` with an explicit running total. -/
def cumsumFrom (acc : ℚ) : List ℚ → List ℚ
  | [] => []
  | w :: ws => (acc + w) :: cumsumFrom (acc + w) ws

/-- `np_cumsum` (shim over `np.cumsum`): running totals. -/
def np_cumsum (ws : List ℚ) : List ℚ := cumsumFrom 0 ws

/-- `np_searchsorted` (shim over `np.searchsorted` with `side="right"`)
on a sorted list: the leftmost position whose entry strictly exceeds the
target, i.e. the length of the longest initial run of entries `≤ target`. -/
def np_searchsorted : List ℚ → ℚ → ℕ
  | [], _ => 0
  | c :: cs, t => if c ≤ t then np_searchsorted cs t + 1 else 0

/-- `np_isclose` (shim over `np.isclose`) with `rtol = atol = 1e-9`:
numpy's criterion `|a - b| <= atol + rtol * |b|`, in exact arithmetic. -/
def np_isclose (a b : ℚ) : Bool :=
  |a - b| ≤ 1 / 1000000000 + 1 / 1000000000 * |b|

/-- `_sort_values_by_weights`: apply the argsort permutation of the values
to both the values and the weights. -/
def _sort_values_by_weights (values weights : List ℚ) : List ℚ × List ℚ :=
  let sorter := np_argsort values
  (sorter.map (fun i => values.getD i 0), sorter.map (fun i => weights.getD i 0))

/-- The `np.all(aweights == 0)` fallback inside the validator: if every
weight is exactly zero, replace the weights with `np.ones_like(aweights)`. -/
def fallbackWeights (ws : List ℚ) : List ℚ :=
  if ws.all (fun w => w == 0) then List.replicate ws.length 1 else ws

/-- `validate_values_and_weights`: shape, emptiness and non-negativity
checks, then the all-zero-weights fallback. -/
def validate_values_and_weights (values weights : ArrayLike) :
    Except SQError (List ℚ × List ℚ) :=
  match values, weights with
  | .scalar _, _ => .error .ShapeError
  | .vec _, .scalar _ => .error .ShapeError
  | .vec vs, .vec ws =>
    if vs.length = 0 then .error .EmptyInputError
    else if vs.length ≠ ws.length then .error .ShapeError
    else if ws.any (fun w => decide (w < 0)) then .error .NegativeWeightError
    else .ok (vs, fallbackWeights ws)

/-- The zero-weight filter in `get_stacked_quantile`:
`avalues[aweights != 0], aweights[aweights != 0]` as a list of pairs. -/
def survivingPairs (av aw : List ℚ) : List (ℚ × ℚ) :=
  (av.zip aw).filter (fun p => decide (p.2 ≠ 0))

/-- The engine's `sorted_values`. -/
def sortedVals (pairs : List (ℚ × ℚ)) : List ℚ :=
  (_sort_values_by_weights (pairs.map Prod.fst) (pairs.map Prod.snd)).1

/-- The engine's `sorted_weights`. -/
def sortedWts (pairs : List (ℚ × ℚ)) : List ℚ :=
  (_sort_values_by_weights (pairs.map Prod.fst) (pairs.map Prod.snd)).2

/-- The engine's `cum_aweights`. -/
def cumWts (pairs : List (ℚ × ℚ)) : List ℚ := np_cumsum (sortedWts pairs)

/-- The engine's `target = cum_aweights[-1] * quantile`. -/
def targetOf (pairs : List (ℚ × ℚ)) (q : ℚ) : ℚ := (cumWts pairs).getLastD 0 * q

/-- The engine's `index = np_searchsorted(cum_aweights, target, side="right")`. -/
def sqIndex (pairs : List (ℚ × ℚ)) (q : ℚ) : ℕ :=
  np_searchsorted (cumWts pairs) (targetOf pairs q)

/-- The engine's boundary test
`np_isclose(cum_aweights[index - 1], target, rtol=1e-9, atol=1e-9)`. -/
def boundaryTest (pairs : List (ℚ × ℚ)) (q : ℚ) : Bool :=
  np_isclose ((cumWts pairs).getD (sqIndex pairs q - 1) 0) (targetOf pairs q)

/-- The decision block of `get_stacked_quantile`, acting on the surviving
(value, weight) pairs. -/
def stackedResult (pairs : List (ℚ × ℚ)) (q : ℚ) : ℚ :=
  if sqIndex pairs q = 0 then (sortedVals pairs).getD 0 0
  else if sqIndex pairs q = (sortedVals pairs).length then
    (sortedVals pairs).getD ((sortedVals pairs).length - 1) 0
  else if boundaryTest pairs q then
    ((sortedVals pairs).getD (sqIndex pairs q - 1) 0 +
      (sortedVals pairs).getD (sqIndex pairs q) 0) / 2
  else (sortedVals pairs).getD (sqIndex pairs q) 0

/-- `get_stacked_quantile`: quantile-range check, validation, zero-weight
filtering, then the sort/cumsum/searchsorted decision block. -/
def get_stacked_quantile (values weights : ArrayLike) (quantile : ℚ) :
    Except SQError ℚ :=
  if quantile < 0 ∨ 1 < quantile then .error .QuantileRangeError
  else
    match validate_values_and_weights values weights with
    | .error e => .error e
    | .ok (av, aw) => .ok (stackedResult (survivingPairs av aw) quantile)

/-- `get_stacked_quantiles` on two-dimensional input (an `N × m` values
matrix and an `N × 1` weights matrix; `values.reshape(-1, m)` and
`weights.flatten()` leave such input unchanged up to shape bookkeeping):
check the leading shapes, split the values into their `m` columns
(`values.reshape(-1, m).T`), flatten the weights, and run the scalar
engine once per column. -/
def get_stacked_quantiles (values weights : List (List ℚ)) (quantile : ℚ) :
    Except SQError (List ℚ) :=
  if values.length ≠ weights.length then .error .ShapeError
  else
    ((List.range (values.headD []).length).map
        (fun j => values.map (fun row => row.getD j 0))).mapM
      (fun x => get_stacked_quantile (.vec x) (.vec weights.flatten) quantile)

/-- `get_stacked_median`. -/
def get_stacked_median (values weights : ArrayLike) : Except SQError ℚ :=
  get_stacked_quantile values weights (1 / 2)

/-- `get_stacked_medians`. -/
def get_stacked_medians (values weights : List (List ℚ)) : Except SQError (List ℚ) :=
  get_stacked_quantiles values weights (1 / 2)

/-- Modelled from the spec: the multiset "formed by repeating each value a
number of times equal to its integer weight" (spec §8, claim C1). -/
def repeatByWeights (values : List ℚ) (weights : List ℕ) : List ℚ :=
  (values.zip weights).flatMap (fun p => List.replicate p.2 p.1)

/-- Modelled from the spec: the unweighted median of a list — the middle
element of the sorted list, or the arithmetic mean of the two middle
elements when the length is even (spec §8, claim C1). -/
def unweightedMedian (xs : List ℚ) : ℚ :=
  if xs.length % 2 = 1 then (List.insertionSort (· ≤ ·) xs).getD (xs.length / 2) 0
  else ((List.insertionSort (· ≤ ·) xs).getD (xs.length / 2 - 1) 0 +
    (List.insertionSort (· ≤ ·) xs).getD (xs.length / 2) 0) / 2

/-- The values that carry positive weight after the all-zero fallback. -/
def survivingValues (vs ws : List ℚ) : List ℚ :=
  (survivingPairs vs (fallbackWeights ws)).map Prod.fst


/-! ## Basic list lemmas -/

lemma range_map_getD {α : Type} (l : List α) (d : α) :
    (List.range l.length).map (fun i => l.getD i d) = l := by
  induction l with
  | nil => simp
  | cons a t ih =>
    simp only [List.length_cons, List.range_succ_eq_map, List.map_cons,
      List.getD_cons_zero, List.map_map]
    refine congrArg (a :: ·) ?_
    have : ((fun i => (a :: t).getD i d) ∘ Nat.succ) = fun i => t.getD i d := by
      funext i; simp [Function.comp, List.getD_cons_succ]
    rw [this, ih]

lemma range_map_getD_pair {α β : Type} (vs : List α) (ws : List β) (dv : α) (dw : β)
    (h : vs.length = ws.length) :
    (List.range vs.length).map (fun i => (vs.getD i dv, ws.getD i dw)) = vs.zip ws := by
  induction vs generalizing ws with
  | nil => simp
  | cons a t ih =>
    cases ws with
    | nil => simp at h
    | cons b u =>
      simp only [List.length_cons, List.range_succ_eq_map, List.map_cons,
        List.getD_cons_zero, List.map_map, List.zip_cons_cons]
      refine congrArg ((a, b) :: ·) ?_
      have : ((fun i => ((a :: t).getD i dv, (b :: u).getD i dw)) ∘ Nat.succ) =
          fun i => (t.getD i dv, u.getD i dw) := by
        funext i; simp [Function.comp, List.getD_cons_succ]
      rw [this, ih u (by simpa using h)]

lemma getD_map_cast (l : List ℕ) (i : ℕ) :
    (l.map (Nat.cast : ℕ → ℚ)).getD i 0 = ((l.getD i 0 : ℕ) : ℚ) := by
  induction l generalizing i with
  | nil => simp
  | cons a t ih =>
    cases i with
    | zero => simp
    | succ j => simpa using ih j

lemma getLastD_eq_getD {α : Type} (l : List α) (d : α) :
    l.getLastD d = l.getD (l.length - 1) d := by
  rw [List.getLastD_eq_getLast?, List.getLast?_eq_getElem?, List.getD_eq_getElem?_getD]

/-! ## cumsum lemmas -/

lemma cumsumFrom_length (a : ℚ) (l : List ℚ) : (cumsumFrom a l).length = l.length := by
  induction l generalizing a with
  | nil => rfl
  | cons w t ih => simp [cumsumFrom, ih]

lemma np_cumsum_length (l : List ℚ) : (np_cumsum l).length = l.length :=
  cumsumFrom_length 0 l

lemma cumsumFrom_map_mul (c a : ℚ) (l : List ℚ) :
    cumsumFrom (c * a) (l.map (fun w => c * w)) = (cumsumFrom a l).map (fun x => c * x) := by
  induction l generalizing a with
  | nil => rfl
  | cons w t ih =>
    simp only [List.map_cons, cumsumFrom]
    rw [← mul_add, ih]

lemma np_cumsum_map_mul (c : ℚ) (l : List ℚ) :
    np_cumsum (l.map (fun w => c * w)) = (np_cumsum l).map (fun x => c * x) := by
  have := cumsumFrom_map_mul c 0 l
  rw [mul_zero] at this
  exact this

/-- Entries of the cumulative sum are the sums of initial segments. -/
lemma cumsumFrom_getD (a : ℚ) (l : List ℚ) (i : ℕ) (hi : i < l.length) :
    (cumsumFrom a l).getD i 0 = a + (l.take (i + 1)).sum := by
  induction l generalizing a i with
  | nil => simp at hi
  | cons w t ih =>
    cases i with
    | zero => simp [cumsumFrom]
    | succ j =>
      simp only [cumsumFrom, List.getD_cons_succ, List.take_succ_cons, List.sum_cons]
      rw [ih (a + w) j (by simpa using hi)]
      ring

lemma np_cumsum_getD (l : List ℚ) (i : ℕ) (hi : i < l.length) :
    (np_cumsum l).getD i 0 = (l.take (i + 1)).sum := by
  rw [np_cumsum, cumsumFrom_getD 0 l i hi, zero_add]

lemma np_cumsum_getLastD (l : List ℚ) (hl : l ≠ []) :
    (np_cumsum l).getLastD 0 = l.sum := by
  have hlen : 0 < l.length := List.length_pos.mpr hl
  rw [getLastD_eq_getD, np_cumsum_length,
    np_cumsum_getD l (l.length - 1) (by omega)]
  have : l.length - 1 + 1 = l.length := by omega
  rw [this, List.take_length]

/-- With strictly positive weights the cumulative sums are strictly
increasing. -/
lemma np_cumsum_pairwise_lt (l : List ℚ) (hpos : ∀ w ∈ l, 0 < w) :
    (np_cumsum l).Pairwise (· < ·) := by
  rw [List.pairwise_iff_getElem]
  intro i j hi hj hij
  rw [np_cumsum_length] at hi hj
  rw [← List.getD_eq_getElem _ 0, ← List.getD_eq_getElem _ 0]
  rw [np_cumsum_getD l i hi, np_cumsum_getD l j hj]
  have hsplit : l.take (j + 1) =
      (l.take (j + 1)).take (i + 1) ++ (l.take (j + 1)).drop (i + 1) :=
    (List.take_append_drop (i + 1) (l.take (j + 1))).symm
  have htt : (l.take (j + 1)).take (i + 1) = l.take (i + 1) := by
    rw [List.take_take]
    congr 1
    omega
  have hne : (l.take (j + 1)).drop (i + 1) ≠ [] := by
    intro h
    have := congrArg List.length h
    rw [List.length_drop, List.length_take] at this
    simp at this
    omega
  have hsum : ((l.take (j + 1)).drop (i + 1)).sum > 0 := by
    refine List.sum_pos _ (fun x hx => ?_) hne
    exact hpos x (((List.drop_sublist _ _).trans (List.take_sublist _ _)).subset hx)
  calc (l.take (i + 1)).sum < (l.take (i + 1)).sum + ((l.take (j + 1)).drop (i + 1)).sum := by
        linarith
    _ = (l.take (j + 1)).sum := by
        conv_rhs => rw [hsplit]
        rw [List.sum_append, htt]


/-! ## searchsorted lemmas -/

lemma np_searchsorted_le_length (cs : List ℚ) (t : ℚ) :
    np_searchsorted cs t ≤ cs.length := by
  induction cs with
  | nil => simp [np_searchsorted]
  | cons c cs ih =>
    rw [np_searchsorted]
    split
    · simpa using ih
    · simp

lemma np_searchsorted_eq_length (cs : List ℚ) (t : ℚ) (h : ∀ c ∈ cs, c ≤ t) :
    np_searchsorted cs t = cs.length := by
  induction cs with
  | nil => rfl
  | cons c cs ih =>
    rw [np_searchsorted, if_pos (h c (by simp))]
    rw [ih (fun x hx => h x (by simp [hx]))]
    rfl

/-- On a nondecreasing list, right-side search-sorted counts the elements
not exceeding the target. -/
lemma np_searchsorted_eq_countP (cs : List ℚ) (t : ℚ)
    (hs : cs.Pairwise (· ≤ ·)) :
    np_searchsorted cs t = cs.countP (fun c => decide (c ≤ t)) := by
  induction cs with
  | nil => rfl
  | cons c cs ih =>
    rw [List.pairwise_cons] at hs
    rw [np_searchsorted, List.countP_cons]
    by_cases h : c ≤ t
    · rw [if_pos h, ih hs.2]
      simp [h]
    · rw [if_neg h]
      have hzero : cs.countP (fun c => decide (c ≤ t)) = 0 := by
        rw [List.countP_eq_zero]
        intro x hx
        have := hs.1 x hx
        simp only [decide_eq_true_eq]
        intro hxt
        exact h (le_trans this hxt)
      rw [hzero]
      simp [h]

lemma np_searchsorted_map_mul (c : ℚ) (hc : 0 < c) (cs : List ℚ) (t : ℚ) :
    np_searchsorted (cs.map (fun x => c * x)) (c * t) = np_searchsorted cs t := by
  induction cs with
  | nil => rfl
  | cons x cs ih =>
    simp only [List.map_cons, np_searchsorted]
    have : c * x ≤ c * t ↔ x ≤ t := by
      constructor
      · intro h; exact le_of_mul_le_mul_left h hc
      · intro h; exact mul_le_mul_of_nonneg_left h hc.le
    rw [ih]
    by_cases h : x ≤ t
    · rw [if_pos h, if_pos (this.mpr h)]
    · rw [if_neg h, if_neg (fun hh => h (this.mp hh))]

/-- The element at the insertion point (when it exists) strictly exceeds
the target. -/
lemma np_searchsorted_getD_gt (cs : List ℚ) (t : ℚ)
    (h : np_searchsorted cs t < cs.length) :
    t < cs.getD (np_searchsorted cs t) 0 := by
  induction cs with
  | nil => simp [np_searchsorted] at h
  | cons c cs ih =>
    rw [np_searchsorted] at h ⊢
    by_cases hc : c ≤ t
    · rw [if_pos hc] at h ⊢
      rw [List.getD_cons_succ]
      exact ih (by simpa using h)
    · rw [if_neg hc] at h ⊢
      rw [List.getD_cons_zero]
      exact lt_of_not_le hc

/-- The element just before the insertion point (when it exists) does not
exceed the target. -/
lemma np_searchsorted_getD_le (cs : List ℚ) (t : ℚ)
    (h : 0 < np_searchsorted cs t) :
    cs.getD (np_searchsorted cs t - 1) 0 ≤ t := by
  induction cs with
  | nil => simp [np_searchsorted] at h
  | cons c cs ih =>
    rw [np_searchsorted] at h ⊢
    by_cases hc : c ≤ t
    · rw [if_pos hc] at h ⊢
      by_cases h0 : 0 < np_searchsorted cs t
      · have := ih h0
        rw [Nat.add_sub_cancel]
        rcases Nat.exists_eq_add_of_lt h0 with ⟨k, hk⟩
        rw [hk] at this ⊢
        simp only [Nat.zero_add, Nat.add_sub_cancel] at this
        rw [show 0 + k + 1 = k + 1 by omega, List.getD_cons_succ]
        exact this
      · have hz : np_searchsorted cs t = 0 := by omega
        rw [hz]
        simpa using hc
    · rw [if_neg hc] at h
      omega


/-! ## argsort lemmas -/

lemma np_argsort_perm (xs : List ℚ) :
    (np_argsort xs).Perm (List.range xs.length) :=
  List.perm_insertionSort _ _

lemma np_argsort_sorted (xs : List ℚ) :
    List.Sorted (argsortLe xs) (np_argsort xs) :=
  List.sorted_insertionSort _ _

lemma np_argsort_nodup (xs : List ℚ) : (np_argsort xs).Nodup :=
  ((np_argsort_perm xs).symm).nodup (List.nodup_range _)

lemma np_argsort_mem (xs : List ℚ) (i : ℕ) :
    i ∈ np_argsort xs ↔ i < xs.length := by
  rw [(np_argsort_perm xs).mem_iff, List.mem_range]

lemma np_argsort_length (xs : List ℚ) : (np_argsort xs).length = xs.length := by
  rw [(np_argsort_perm xs).length_eq, List.length_range]

/-- The values in argsort order are nondecreasing. -/
lemma np_argsort_map_sorted (xs : List ℚ) :
    List.Sorted (· ≤ ·) ((np_argsort xs).map (fun i => xs.getD i 0)) := by
  refine List.Pairwise.map _ ?_ (np_argsort_sorted xs)
  intro a b hab
  rcases hab with h | ⟨h, _⟩
  · exact h.le
  · exact h.le

/-- Mapping any index-indexed tuple over the argsort permutation permutes
the corresponding positional list. -/
lemma np_argsort_map_getD_perm {α : Type} (xs : List ℚ) (l : List α) (d : α)
    (hlen : l.length = xs.length) :
    ((np_argsort xs).map (fun i => l.getD i d)).Perm l := by
  have h1 : ((np_argsort xs).map (fun i => l.getD i d)).Perm
      ((List.range xs.length).map (fun i => l.getD i d)) :=
    (np_argsort_perm xs).map _
  rw [← hlen] at h1
  rw [range_map_getD l d] at h1
  exact h1

/-! ## Pipeline lemmas: sortedVals / sortedWts / cumWts -/

lemma sortedVals_def (pairs : List (ℚ × ℚ)) :
    sortedVals pairs =
      (np_argsort (pairs.map Prod.fst)).map (fun i => (pairs.map Prod.fst).getD i 0) :=
  rfl

lemma sortedWts_def (pairs : List (ℚ × ℚ)) :
    sortedWts pairs =
      (np_argsort (pairs.map Prod.fst)).map (fun i => (pairs.map Prod.snd).getD i 0) :=
  rfl

lemma sortedVals_sorted (pairs : List (ℚ × ℚ)) :
    List.Sorted (· ≤ ·) (sortedVals pairs) :=
  np_argsort_map_sorted _

lemma sortedVals_perm (pairs : List (ℚ × ℚ)) :
    (sortedVals pairs).Perm (pairs.map Prod.fst) :=
  np_argsort_map_getD_perm _ _ _ (by simp)

lemma sortedWts_perm (pairs : List (ℚ × ℚ)) :
    (sortedWts pairs).Perm (pairs.map Prod.snd) := by
  have h1 : ((np_argsort (pairs.map Prod.fst)).map
      (fun i => (pairs.map Prod.snd).getD i 0)).Perm
      ((List.range (pairs.map Prod.fst).length).map
        (fun i => (pairs.map Prod.snd).getD i 0)) :=
    (np_argsort_perm _).map _
  rw [sortedWts_def]
  refine h1.trans ?_
  have hlen : (pairs.map Prod.fst).length = (pairs.map Prod.snd).length := by simp
  rw [hlen, range_map_getD]

lemma sortedVals_length (pairs : List (ℚ × ℚ)) :
    (sortedVals pairs).length = pairs.length := by
  rw [(sortedVals_perm pairs).length_eq, List.length_map]

lemma sortedWts_length (pairs : List (ℚ × ℚ)) :
    (sortedWts pairs).length = pairs.length := by
  rw [(sortedWts_perm pairs).length_eq, List.length_map]

lemma cumWts_length (pairs : List (ℚ × ℚ)) :
    (cumWts pairs).length = pairs.length := by
  rw [cumWts, np_cumsum_length, sortedWts_length]

/-- The paired sorted lists, as a single list of pairs. -/
def sortedPairs (pairs : List (ℚ × ℚ)) : List (ℚ × ℚ) :=
  (np_argsort (pairs.map Prod.fst)).map
    (fun i => ((pairs.map Prod.fst).getD i 0, (pairs.map Prod.snd).getD i 0))

lemma sortedPairs_fst (pairs : List (ℚ × ℚ)) :
    (sortedPairs pairs).map Prod.fst = sortedVals pairs := by
  rw [sortedPairs, sortedVals_def, List.map_map]
  rfl

lemma sortedPairs_snd (pairs : List (ℚ × ℚ)) :
    (sortedPairs pairs).map Prod.snd = sortedWts pairs := by
  rw [sortedPairs, sortedWts_def, List.map_map]
  rfl

lemma sortedPairs_perm (pairs : List (ℚ × ℚ)) :
    (sortedPairs pairs).Perm pairs := by
  have h1 : (sortedPairs pairs).Perm
      ((List.range (pairs.map Prod.fst).length).map
        (fun i => ((pairs.map Prod.fst).getD i 0, (pairs.map Prod.snd).getD i 0))) :=
    (np_argsort_perm _).map _
  refine h1.trans ?_
  rw [List.length_map, show pairs.length = (pairs.map Prod.fst).length by simp,
    range_map_getD_pair _ _ _ _ (by simp)]
  rw [List.zip_map' Prod.fst Prod.snd pairs]
  simp


/-! ## Validator lemmas -/

lemma fallbackWeights_length (ws : List ℚ) :
    (fallbackWeights ws).length = ws.length := by
  rw [fallbackWeights]
  split <;> simp

lemma fallbackWeights_nonneg (ws : List ℚ) (h : ∀ x ∈ ws, 0 ≤ x) :
    ∀ x ∈ fallbackWeights ws, 0 ≤ x := by
  rw [fallbackWeights]
  split
  · intro x hx
    rw [List.eq_of_mem_replicate hx]
    norm_num
  · exact h

lemma fallbackWeights_exists_ne_zero (ws : List ℚ) (h : ws ≠ []) :
    ∃ x ∈ fallbackWeights ws, x ≠ 0 := by
  rw [fallbackWeights]
  split
  · refine ⟨1, ?_, one_ne_zero⟩
    refine List.mem_replicate.mpr ⟨?_, rfl⟩
    intro hlen0
    exact h (List.length_eq_zero.mp hlen0)
  · next hall =>
    rw [List.all_eq_true] at hall
    push_neg at hall
    obtain ⟨x, hx, hxne⟩ := hall
    exact ⟨x, hx, by simpa using hxne⟩

lemma validate_ok_iff (v w : ArrayLike) (p : List ℚ × List ℚ) :
    validate_values_and_weights v w = .ok p ↔
      ∃ vs ws, v = .vec vs ∧ w = .vec ws ∧ vs ≠ [] ∧ vs.length = ws.length ∧
        (∀ x ∈ ws, 0 ≤ x) ∧ p = (vs, fallbackWeights ws) := by
  constructor
  · intro h
    cases v with
    | scalar x => simp [validate_values_and_weights] at h
    | vec vs =>
      cases w with
      | scalar x => simp [validate_values_and_weights] at h
      | vec ws =>
        rw [validate_values_and_weights] at h
        by_cases h1 : vs.length = 0
        · rw [if_pos h1] at h; exact absurd h (by simp)
        · rw [if_neg h1] at h
          by_cases h2 : vs.length ≠ ws.length
          · rw [if_pos h2] at h; exact absurd h (by simp)
          · rw [if_neg h2] at h
            by_cases h3 : ws.any (fun w => decide (w < 0))
            · rw [if_pos h3] at h; exact absurd h (by simp)
            · rw [if_neg h3] at h
              refine ⟨vs, ws, rfl, rfl, ?_, by omega, ?_, ?_⟩
              · intro hnil; exact h1 (by simp [hnil])
              · intro x hx
                by_contra hneg
                exact h3 (List.any_eq_true.mpr ⟨x, hx, by simpa using lt_of_not_le hneg⟩)
              · cases h; rfl
  · rintro ⟨vs, ws, rfl, rfl, hne, hlen, hnn, rfl⟩
    rw [validate_values_and_weights]
    rw [if_neg (by simpa using hne), if_neg (by omega), if_neg ?_]
    intro hany
    obtain ⟨x, hx, hxlt⟩ := List.any_eq_true.mp hany
    exact absurd (hnn x hx) (by simpa using hxlt)

/-- The engine on valid vector input: the quantile check and validation
pass, and the decision block runs on the surviving pairs. -/
lemma get_stacked_quantile_ok (vs ws : List ℚ) (q : ℚ)
    (hq0 : 0 ≤ q) (hq1 : q ≤ 1) (hne : vs ≠ []) (hlen : vs.length = ws.length)
    (hnn : ∀ x ∈ ws, 0 ≤ x) :
    get_stacked_quantile (.vec vs) (.vec ws) q =
      .ok (stackedResult (survivingPairs vs (fallbackWeights ws)) q) := by
  rw [get_stacked_quantile, if_neg (by push_neg; exact ⟨hq0, hq1⟩)]
  have hv : validate_values_and_weights (.vec vs) (.vec ws) =
      .ok (vs, fallbackWeights ws) :=
    (validate_ok_iff _ _ _).mpr ⟨vs, ws, rfl, rfl, hne, hlen, hnn, rfl⟩
  rw [hv]

/-! ## Surviving-pair lemmas -/

lemma survivingPairs_sublist (av aw : List ℚ) :
    (survivingPairs av aw).Sublist (av.zip aw) :=
  List.filter_sublist _

lemma survivingPairs_weight_ne_zero (av aw : List ℚ) :
    ∀ p ∈ survivingPairs av aw, p.2 ≠ 0 := by
  intro p hp
  have := List.of_mem_filter hp
  simpa using this

lemma survivingPairs_weight_pos (av aw : List ℚ) (hnn : ∀ x ∈ aw, 0 ≤ x) :
    ∀ p ∈ survivingPairs av aw, 0 < p.2 := by
  intro p hp
  have hne := survivingPairs_weight_ne_zero av aw p hp
  have hmem : p ∈ av.zip aw := (survivingPairs_sublist av aw).subset hp
  have := (List.of_mem_zip hmem).2
  exact lt_of_le_of_ne (hnn _ this) (Ne.symm hne)

lemma survivingPairs_ne_nil (av aw : List ℚ) (hlen : av.length = aw.length)
    (hex : ∃ x ∈ aw, x ≠ 0) : survivingPairs av aw ≠ [] := by
  obtain ⟨x, hx, hxne⟩ := hex
  obtain ⟨i, hi, rfl⟩ := List.mem_iff_getElem.mp hx
  have hiz : i < (av.zip aw).length := by
    rw [List.length_zip]
    omega
  have hmem : (av.zip aw)[i] ∈ av.zip aw := List.getElem_mem hiz
  have hz := @List.getElem_zip ℚ ℚ av aw i hiz
  intro hnil
  have hfil : (av.zip aw)[i] ∈ survivingPairs av aw := by
    refine List.mem_filter.mpr ⟨hmem, ?_⟩
    rw [hz]
    simpa using hxne
  rw [hnil] at hfil
  simp at hfil


/-! ## Claim C8 -/

/-- C8: for every input with quantile strictly outside [0, 1],
`get_stacked_quantile` fails with `QuantileRangeError`, before any
validation of values and weights — so it fires even on invalid
values/weights. -/
theorem C8_quantile_range_checked_first (values weights : ArrayLike) (q : ℚ)
    (h : q < 0 ∨ 1 < q) :
    get_stacked_quantile values weights q = .error .QuantileRangeError := by
  rw [get_stacked_quantile, if_pos h]

/-- C8 witness: quantile 3/2 on a zero-dimensional values input with a
negative weight still reports the quantile error. -/
theorem C8_quantile_range_checked_first_witness :
    ((3 : ℚ) / 2 < 0 ∨ 1 < (3 : ℚ) / 2) ∧
      get_stacked_quantile (.scalar 5) (.vec [-1]) (3 / 2) =
        .error .QuantileRangeError :=
  ⟨by norm_num,
    C8_quantile_range_checked_first (.scalar 5) (.vec [-1]) (3 / 2) (by norm_num)⟩

/-! ## Claim C4 -/

/-- C4: for a non-empty values list and quantile in [0, 1], all-zero
weights give the same result as all-one weights, because the validator
substitutes an all-ones weight sequence on the all-zero path. -/
theorem C4_all_zero_weights_like_ones (vs : List ℚ) (q : ℚ)
    (hne : vs ≠ []) (hq0 : 0 ≤ q) (hq1 : q ≤ 1) :
    get_stacked_quantile (.vec vs) (.vec (List.replicate vs.length 0)) q =
      get_stacked_quantile (.vec vs) (.vec (List.replicate vs.length 1)) q := by
  have hn : vs.length ≠ 0 := fun h => hne (List.length_eq_zero.mp h)
  have h0 : fallbackWeights (List.replicate vs.length 0) =
      List.replicate vs.length 1 := by
    rw [fallbackWeights, if_pos]
    · simp
    · rw [List.all_eq_true]
      intro x hx
      rw [List.eq_of_mem_replicate hx]
      simp
  have h1 : fallbackWeights (List.replicate vs.length 1) =
      List.replicate vs.length 1 := by
    rw [fallbackWeights, if_neg]
    intro hall
    rw [List.all_eq_true] at hall
    have := hall 1 (List.mem_replicate.mpr ⟨hn, rfl⟩)
    simp at this
  rw [get_stacked_quantile_ok vs _ q hq0 hq1 hne (by simp)
      (fun x hx => by rw [List.eq_of_mem_replicate hx]),
    get_stacked_quantile_ok vs _ q hq0 hq1 hne (by simp)
      (fun x hx => by rw [List.eq_of_mem_replicate hx]; norm_num),
    h0, h1]

/-- C4 witness: values [3, 7, 5] at the median. -/
theorem C4_all_zero_weights_like_ones_witness :
    ([(3 : ℚ), 7, 5] ≠ [] ∧ (0 : ℚ) ≤ 1 / 2 ∧ (1 : ℚ) / 2 ≤ 1) ∧
      get_stacked_quantile (.vec [3, 7, 5]) (.vec (List.replicate 3 0)) (1 / 2) =
        get_stacked_quantile (.vec [3, 7, 5]) (.vec (List.replicate 3 1)) (1 / 2) :=
  ⟨⟨by simp, by norm_num, by norm_num⟩,
    C4_all_zero_weights_like_ones [3, 7, 5] (1 / 2) (by simp) (by norm_num)
      (by norm_num)⟩

/-! ## Claim C7 -/

/-- C7 counterexample: with empty values and a length-1 weight list the
trailing-axis lengths differ, yet the validator reports
`EmptyInputError`, not the `ShapeError` the claim asserts for
mismatched lengths: the emptiness check runs first. -/
theorem C7_counterexample :
    validate_values_and_weights (.vec []) (.vec [1]) = .error .EmptyInputError ∧
      validate_values_and_weights (.vec []) (.vec [1]) ≠ .error .ShapeError := by
  constructor
  · rw [validate_values_and_weights]
    simp
  · rw [validate_values_and_weights]
    simp

/-- C7 (amended): the validator fails with `ShapeError` when either input
is zero-dimensional; with `EmptyInputError` when the values sequence is
empty (this check precedes the length comparison); with `ShapeError` when
values is non-empty and the lengths differ; with `NegativeWeightError`
when the lengths agree, values is non-empty and some weight is negative;
and otherwise returns the values together with the weights after the
all-zero fallback. -/
theorem C7_validator_error_cases (v w : ArrayLike) :
    ((∃ x, v = .scalar x) ∨ (∃ x, w = .scalar x) →
      validate_values_and_weights v w = .error .ShapeError) ∧
    (∀ vs ws, v = .vec vs → w = .vec ws →
      (vs = [] → validate_values_and_weights v w = .error .EmptyInputError) ∧
      (vs ≠ [] → vs.length ≠ ws.length →
        validate_values_and_weights v w = .error .ShapeError) ∧
      (vs ≠ [] → vs.length = ws.length → (∃ x ∈ ws, x < 0) →
        validate_values_and_weights v w = .error .NegativeWeightError) ∧
      (vs ≠ [] → vs.length = ws.length → (∀ x ∈ ws, 0 ≤ x) →
        validate_values_and_weights v w = .ok (vs, fallbackWeights ws))) := by
  constructor
  · rintro (⟨x, rfl⟩ | ⟨x, rfl⟩)
    · rfl
    · cases v <;> rfl
  · rintro vs ws rfl rfl
    refine ⟨?_, ?_, ?_, ?_⟩
    · rintro rfl
      rw [validate_values_and_weights]
      simp
    · intro hne hlen
      rw [validate_values_and_weights,
        if_neg (fun h => hne (List.length_eq_zero.mp h)), if_pos hlen]
    · intro hne hlen hneg
      obtain ⟨x, hx, hxlt⟩ := hneg
      rw [validate_values_and_weights,
        if_neg (fun h => hne (List.length_eq_zero.mp h)), if_neg (by omega),
        if_pos (List.any_eq_true.mpr ⟨x, hx, by simpa using hxlt⟩)]
    · intro hne hlen hnn
      exact (validate_ok_iff _ _ _).mpr ⟨vs, ws, rfl, rfl, hne, hlen, hnn, rfl⟩

/-- C7 witness: the four amended outcomes at concrete inputs. -/
theorem C7_validator_error_cases_witness :
    validate_values_and_weights (.scalar 2) (.vec [1]) = .error .ShapeError ∧
    validate_values_and_weights (.vec []) (.vec []) = .error .EmptyInputError ∧
    validate_values_and_weights (.vec [1]) (.vec [1, 2]) = .error .ShapeError ∧
    validate_values_and_weights (.vec [1, 2]) (.vec [1, -3]) =
      .error .NegativeWeightError ∧
    validate_values_and_weights (.vec [1, 2]) (.vec [0, 5]) =
      .ok ([1, 2], [0, 5]) := by
  refine ⟨(C7_validator_error_cases (.scalar 2) (.vec [1])).1 (Or.inl ⟨2, rfl⟩),
    ((C7_validator_error_cases (.vec []) (.vec [])).2 [] [] rfl rfl).1 rfl,
    (((C7_validator_error_cases (.vec [1]) (.vec [1, 2])).2 [1] [1, 2] rfl
      rfl).2).1 (by simp) (by simp),
    ((((C7_validator_error_cases (.vec [1, 2]) (.vec [1, -3])).2 [1, 2] [1, -3]
      rfl rfl).2).2).1 (by simp) (by simp) ⟨-3, by simp, by norm_num⟩, ?_⟩
  have := ((((C7_validator_error_cases (.vec [1, 2]) (.vec [0, 5])).2 [1, 2]
    [0, 5] rfl rfl).2).2).2 (by simp) (by simp) ?_
  · rw [this]
    have : fallbackWeights [0, 5] = [0, 5] := by
      rw [fallbackWeights, if_neg]
      simp
    rw [this]
  · intro x hx
    rcases List.mem_pair.mp hx with rfl | rfl <;> norm_num

/-! ## Claim C5 -/

/-- C5: the argsort permutation used by the scalar engine contains every
input position exactly once, sorts the values ascending, and breaks ties
between equal values by original position, so tied values (and their
weights) keep their input order. -/
theorem C5_sort_is_stable (values weights : List ℚ) :
    (np_argsort values).Perm (List.range values.length) ∧
    List.Sorted (· ≤ ·) ((_sort_values_by_weights values weights).1) ∧
    List.Pairwise (fun i j => values.getD i 0 = values.getD j 0 → i < j)
      (np_argsort values) := by
  refine ⟨np_argsort_perm values, np_argsort_map_sorted values, ?_⟩
  have hs := np_argsort_sorted values
  have hn : (np_argsort values).Pairwise (· ≠ ·) := np_argsort_nodup values
  refine (hs.and hn).imp ?_
  rintro i j ⟨hle, hne⟩ heq
  rcases hle with hlt | ⟨-, hij⟩
  · exact absurd heq (ne_of_lt hlt)
  · exact lt_of_le_of_ne hij hne

/-! ## Claim C9 -/

/-- C9: whenever validation succeeds, at least one pair survives the
zero-weight filter and every surviving weight is strictly positive; the
sorted-values and cumulative-weight arrays have the same (positive)
length, the search index never exceeds that length, and for any quantile
in [0, 1] the engine returns a result rather than failing. -/
theorem C9_survivors_invariant (v w : ArrayLike) (av aw : List ℚ)
    (h : validate_values_and_weights v w = .ok (av, aw)) :
    survivingPairs av aw ≠ [] ∧
    (∀ p ∈ survivingPairs av aw, 0 < p.2) ∧
    (sortedVals (survivingPairs av aw)).length = (survivingPairs av aw).length ∧
    (cumWts (survivingPairs av aw)).length = (survivingPairs av aw).length ∧
    (∀ q : ℚ, sqIndex (survivingPairs av aw) q ≤ (survivingPairs av aw).length) ∧
    (∀ q : ℚ, 0 ≤ q → q ≤ 1 → ∃ r, get_stacked_quantile v w q = .ok r) := by
  obtain ⟨vs, ws, rfl, rfl, hne, hlen, hnn, hp⟩ := (validate_ok_iff _ _ _).mp h
  have hav : av = vs := congrArg Prod.fst hp
  have haw : aw = fallbackWeights ws := congrArg Prod.snd hp
  subst hav
  subst haw
  have hwne : ws ≠ [] := by
    intro hnil
    apply hne
    apply List.length_eq_zero.mp
    rw [hlen, hnil]
    rfl
  refine ⟨?_, ?_, ?_, ?_, ?_, ?_⟩
  · exact survivingPairs_ne_nil _ _ (by rw [fallbackWeights_length]; exact hlen)
      (fallbackWeights_exists_ne_zero ws hwne)
  · exact survivingPairs_weight_pos _ _ (fallbackWeights_nonneg ws hnn)
  · exact sortedVals_length _
  · exact cumWts_length _
  · intro q
    rw [sqIndex, ← cumWts_length]
    exact np_searchsorted_le_length _ _
  · intro q hq0 hq1
    exact ⟨_, get_stacked_quantile_ok _ _ q hq0 hq1 hne hlen hnn⟩

/-- C9 witness. -/
theorem C9_survivors_invariant_witness :
    validate_values_and_weights (.vec [4, 6]) (.vec [0, 3]) = .ok ([4, 6], [0, 3]) ∧
      survivingPairs [4, 6] [0, 3] ≠ [] ∧
      (∀ p ∈ survivingPairs [4, 6] [0, 3], 0 < p.2) := by
  have hval : validate_values_and_weights (.vec [4, 6]) (.vec [0, 3]) =
      .ok ([4, 6], [0, 3]) := by
    have : fallbackWeights [0, 3] = [0, 3] := by
      rw [fallbackWeights, if_neg]
      simp
    rw [validate_values_and_weights, if_neg (by simp), if_neg (by simp),
      if_neg (by norm_num), this]
  have := C9_survivors_invariant (.vec [4, 6]) (.vec [0, 3]) [4, 6] [0, 3] hval
  exact ⟨hval, this.1, this.2.1⟩


/-! ## Sorted-list extremum lemmas -/

lemma getD_zero_mem (l : List ℚ) (h : l ≠ []) : l.getD 0 0 ∈ l := by
  rw [List.getD_eq_getElem l 0 (List.length_pos.mpr h)]
  exact List.getElem_mem _

lemma getD_last_mem (l : List ℚ) (h : l ≠ []) : l.getD (l.length - 1) 0 ∈ l := by
  have hl : 0 < l.length := List.length_pos.mpr h
  rw [List.getD_eq_getElem l 0 (by omega)]
  exact List.getElem_mem _

lemma sorted_getD_zero_le (l : List ℚ) (hs : List.Sorted (· ≤ ·) l)
    (x : ℚ) (hx : x ∈ l) : l.getD 0 0 ≤ x := by
  cases l with
  | nil => simp at hx
  | cons a t =>
    rw [List.sorted_cons] at hs
    rw [List.getD_cons_zero]
    rcases List.mem_cons.mp hx with rfl | hxt
    · exact le_refl x
    · exact hs.1 x hxt

lemma sorted_le_getD_last (l : List ℚ) (hs : List.Sorted (· ≤ ·) l)
    (x : ℚ) (hx : x ∈ l) : x ≤ l.getD (l.length - 1) 0 := by
  obtain ⟨i, hi, rfl⟩ := List.mem_iff_getElem.mp hx
  have hlast : l.length - 1 < l.length := by omega
  rw [List.getD_eq_getElem l 0 hlast]
  rcases Nat.lt_or_ge i (l.length - 1) with hlt | hge
  · exact (List.pairwise_iff_getElem.mp hs) i (l.length - 1) hi hlast hlt
  · have : i = l.length - 1 := by omega
    subst this
    exact le_refl _

/-! ## Index lemmas at the extreme quantiles -/

lemma sortedWts_mem_pos (pairs : List (ℚ × ℚ)) (hpos : ∀ p ∈ pairs, 0 < p.2) :
    ∀ x ∈ sortedWts pairs, 0 < x := by
  intro x hx
  have : x ∈ pairs.map Prod.snd := (sortedWts_perm pairs).subset hx
  obtain ⟨p, hp, rfl⟩ := List.mem_map.mp this
  exact hpos p hp

lemma sqIndex_at_zero (pairs : List (ℚ × ℚ)) (hne : pairs ≠ [])
    (hpos : ∀ p ∈ pairs, 0 < p.2) : sqIndex pairs 0 = 0 := by
  have hlen : (sortedWts pairs).length = pairs.length := sortedWts_length pairs
  have hwne : sortedWts pairs ≠ [] := by
    intro hnil
    rw [hnil] at hlen
    exact hne (List.length_eq_zero.mp hlen.symm)
  rw [sqIndex, targetOf, mul_zero]
  obtain ⟨a, t, hat⟩ := List.exists_cons_of_ne_nil hwne
  rw [cumWts, hat, np_cumsum, cumsumFrom, np_searchsorted, if_neg]
  have ha : 0 < a := sortedWts_mem_pos pairs hpos a (by rw [hat]; simp)
  push_neg
  linarith

lemma sqIndex_at_one (pairs : List (ℚ × ℚ)) (hne : pairs ≠ [])
    (hpos : ∀ p ∈ pairs, 0 < p.2) : sqIndex pairs 1 = pairs.length := by
  have hlen : (sortedWts pairs).length = pairs.length := sortedWts_length pairs
  have hwne : sortedWts pairs ≠ [] := by
    intro hnil
    rw [hnil] at hlen
    exact hne (List.length_eq_zero.mp hlen.symm)
  rw [sqIndex, targetOf, mul_one, cumWts, np_cumsum_getLastD _ hwne]
  rw [← hlen, ← np_cumsum_length (sortedWts pairs)]
  refine np_searchsorted_eq_length _ _ ?_
  intro c hc
  obtain ⟨i, hi, rfl⟩ := List.mem_iff_getElem.mp hc
  rw [← List.getD_eq_getElem _ 0 hi]
  rw [np_cumsum_length] at hi
  rw [np_cumsum_getD _ _ hi]
  have hsplit := List.take_append_drop (i + 1) (sortedWts pairs)
  have : (sortedWts pairs).sum =
      ((sortedWts pairs).take (i + 1)).sum + ((sortedWts pairs).drop (i + 1)).sum := by
    conv_lhs => rw [← hsplit]
    rw [List.sum_append]
  rw [this]
  have hnn : 0 ≤ ((sortedWts pairs).drop (i + 1)).sum := by
    refine List.sum_nonneg ?_
    intro x hx
    exact (sortedWts_mem_pos pairs hpos x ((List.drop_sublist _ _).subset hx)).le
  linarith

/-! ## Claim C10 -/

/-- C10: whenever validation succeeds, quantile 0 returns the minimum and
quantile 1 the maximum of the values that survive the zero-weight filter
(the values with positive weight after the all-zero fallback). -/
theorem C10_extremes (v w : ArrayLike) (av aw : List ℚ)
    (h : validate_values_and_weights v w = .ok (av, aw)) :
    (∃ a, get_stacked_quantile v w 0 = .ok a ∧
      a ∈ (survivingPairs av aw).map Prod.fst ∧
      ∀ x ∈ (survivingPairs av aw).map Prod.fst, a ≤ x) ∧
    (∃ b, get_stacked_quantile v w 1 = .ok b ∧
      b ∈ (survivingPairs av aw).map Prod.fst ∧
      ∀ x ∈ (survivingPairs av aw).map Prod.fst, x ≤ b) := by
  obtain ⟨vs, ws, rfl, rfl, hne, hlen, hnn, hp⟩ := (validate_ok_iff _ _ _).mp h
  have hav : av = vs := congrArg Prod.fst hp
  have haw : aw = fallbackWeights ws := congrArg Prod.snd hp
  subst hav
  subst haw
  set P := survivingPairs av (fallbackWeights ws) with hP
  have hwne : ws ≠ [] := by
    intro hnil
    apply hne
    apply List.length_eq_zero.mp
    rw [hlen, hnil]
    rfl
  have hPne : P ≠ [] :=
    survivingPairs_ne_nil _ _ (by rw [fallbackWeights_length]; exact hlen)
      (fallbackWeights_exists_ne_zero ws hwne)
  have hPpos : ∀ p ∈ P, 0 < p.2 :=
    survivingPairs_weight_pos _ _ (fallbackWeights_nonneg ws hnn)
  have hsvne : sortedVals P ≠ [] := by
    intro hnil
    have := sortedVals_length P
    rw [hnil] at this
    exact hPne (List.length_eq_zero.mp this.symm)
  have hmemiff : ∀ x, x ∈ sortedVals P ↔ x ∈ P.map Prod.fst :=
    fun x => (sortedVals_perm P).mem_iff
  constructor
  · refine ⟨stackedResult P 0, ?_, ?_, ?_⟩
    · exact get_stacked_quantile_ok _ _ 0 le_rfl zero_le_one hne hlen hnn
    · rw [stackedResult, if_pos (sqIndex_at_zero P hPne hPpos)]
      exact (hmemiff _).mp (getD_zero_mem _ hsvne)
    · intro x hx
      rw [stackedResult, if_pos (sqIndex_at_zero P hPne hPpos)]
      exact sorted_getD_zero_le _ (sortedVals_sorted P) x ((hmemiff x).mpr hx)
  · have hPlen : 0 < P.length := List.length_pos.mpr hPne
    have hidx : sqIndex P 1 = (sortedVals P).length := by
      rw [sqIndex_at_one P hPne hPpos, sortedVals_length]
    refine ⟨stackedResult P 1, ?_, ?_, ?_⟩
    · exact get_stacked_quantile_ok _ _ 1 zero_le_one le_rfl hne hlen hnn
    · rw [stackedResult, if_neg (by rw [sqIndex_at_one P hPne hPpos]; omega),
        if_pos hidx]
      exact (hmemiff _).mp (getD_last_mem _ hsvne)
    · intro x hx
      rw [stackedResult, if_neg (by rw [sqIndex_at_one P hPne hPpos]; omega),
        if_pos hidx]
      exact sorted_le_getD_last _ (sortedVals_sorted P) x ((hmemiff x).mpr hx)


/-- C10 witness: values [4, 6] with weights [1, 3]. -/
theorem C10_extremes_witness :
    validate_values_and_weights (.vec [4, 6]) (.vec [1, 3]) = .ok ([4, 6], [1, 3]) ∧
    ((∃ a, get_stacked_quantile (.vec [4, 6]) (.vec [1, 3]) 0 = .ok a ∧
      a ∈ (survivingPairs [4, 6] [1, 3]).map Prod.fst ∧
      ∀ x ∈ (survivingPairs [4, 6] [1, 3]).map Prod.fst, a ≤ x) ∧
    (∃ b, get_stacked_quantile (.vec [4, 6]) (.vec [1, 3]) 1 = .ok b ∧
      b ∈ (survivingPairs [4, 6] [1, 3]).map Prod.fst ∧
      ∀ x ∈ (survivingPairs [4, 6] [1, 3]).map Prod.fst, x ≤ b)) := by
  have hfb : fallbackWeights [1, 3] = [1, 3] := by
    rw [fallbackWeights, if_neg]
    simp
  have hval : validate_values_and_weights (.vec [4, 6]) (.vec [1, 3]) =
      .ok ([4, 6], [1, 3]) := by
    rw [validate_values_and_weights, if_neg (by simp), if_neg (by simp),
      if_neg (by norm_num), hfb]
  exact ⟨hval, C10_extremes (.vec [4, 6]) (.vec [1, 3]) [4, 6] [1, 3] hval⟩

/-! ## Claim C2 -/

lemma getD_mem_of_lt (l : List ℚ) (i : ℕ) (h : i < l.length) : l.getD i 0 ∈ l := by
  rw [List.getD_eq_getElem l 0 h]
  exact List.getElem_mem _

/-- C2: on every accepted input, the result is either one of the surviving
input values (those with positive weight after the all-zero fallback) or
the arithmetic mean of two values adjacent in ascending sorted order —
never any other interpolated point. -/
theorem C2_result_form (v w : ArrayLike) (av aw : List ℚ) (q r : ℚ)
    (h : validate_values_and_weights v w = .ok (av, aw))
    (hr : get_stacked_quantile v w q = .ok r) :
    r ∈ (survivingPairs av aw).map Prod.fst ∨
    ∃ i, i + 1 < (sortedVals (survivingPairs av aw)).length ∧
      r = ((sortedVals (survivingPairs av aw)).getD i 0 +
            (sortedVals (survivingPairs av aw)).getD (i + 1) 0) / 2 := by
  obtain ⟨vs, ws, rfl, rfl, hne, hlen, hnn, hp⟩ := (validate_ok_iff _ _ _).mp h
  have hav : av = vs := congrArg Prod.fst hp
  have haw : aw = fallbackWeights ws := congrArg Prod.snd hp
  subst hav
  subst haw
  set P := survivingPairs av (fallbackWeights ws) with hP
  have hwne : ws ≠ [] := by
    intro hnil
    apply hne
    apply List.length_eq_zero.mp
    rw [hlen, hnil]
    rfl
  have hPne : P ≠ [] :=
    survivingPairs_ne_nil _ _ (by rw [fallbackWeights_length]; exact hlen)
      (fallbackWeights_exists_ne_zero ws hwne)
  have hsvlen : (sortedVals P).length = P.length := sortedVals_length P
  have hsvne : sortedVals P ≠ [] := by
    intro hnil
    rw [hnil] at hsvlen
    exact hPne (List.length_eq_zero.mp hsvlen.symm)
  have hmem : ∀ x, x ∈ sortedVals P → x ∈ P.map Prod.fst :=
    fun x hx => (sortedVals_perm P).subset hx
  have hidx : sqIndex P q ≤ P.length := by
    rw [sqIndex, ← cumWts_length P]
    exact np_searchsorted_le_length _ _
  -- the engine accepted the input, so the result is the decision block value
  rw [get_stacked_quantile] at hr
  by_cases hq : q < 0 ∨ 1 < q
  · rw [if_pos hq] at hr
    exact absurd hr (by simp)
  · rw [if_neg hq, h] at hr
    have hr2 : (Except.ok (stackedResult P q) : Except SQError ℚ) = .ok r := hr
    have hre : r = stackedResult P q := by
      injection hr2 with h2
      exact h2.symm
    rw [stackedResult] at hre
    by_cases h0 : sqIndex P q = 0
    · rw [if_pos h0] at hre
      exact Or.inl (hre ▸ hmem _ (getD_zero_mem _ hsvne))
    · rw [if_neg h0] at hre
      by_cases hk : sqIndex P q = (sortedVals P).length
      · rw [if_pos hk] at hre
        exact Or.inl (hre ▸ hmem _ (getD_last_mem _ hsvne))
      · rw [if_neg hk] at hre
        have hlt : sqIndex P q < (sortedVals P).length := by
          rw [hsvlen]
          rw [hsvlen] at hk
          omega
        by_cases hb : boundaryTest P q = true
        · rw [if_pos hb] at hre
          refine Or.inr ⟨sqIndex P q - 1, ?_, ?_⟩
          · have he : sqIndex P q - 1 + 1 = sqIndex P q := by omega
            rw [he]
            exact hlt
          · have he : sqIndex P q - 1 + 1 = sqIndex P q := by omega
            rw [he]
            exact hre
        · rw [if_neg hb] at hre
          exact Or.inl (hre ▸ hmem _ (getD_mem_of_lt _ _ hlt))

/-- C2 witness: values [4, 6] with weights [1, 3] at the median. -/
theorem C2_result_form_witness :
    ∃ r, get_stacked_quantile (.vec [4, 6]) (.vec [1, 3]) (1 / 2) = .ok r ∧
      (r ∈ (survivingPairs [4, 6] [1, 3]).map Prod.fst ∨
        ∃ i, i + 1 < (sortedVals (survivingPairs [4, 6] [1, 3])).length ∧
          r = ((sortedVals (survivingPairs [4, 6] [1, 3])).getD i 0 +
                (sortedVals (survivingPairs [4, 6] [1, 3])).getD (i + 1) 0) / 2) := by
  have hfb : fallbackWeights [1, 3] = [1, 3] := by
    rw [fallbackWeights, if_neg]
    simp
  have hval : validate_values_and_weights (.vec [4, 6]) (.vec [1, 3]) =
      .ok ([4, 6], [1, 3]) := by
    rw [validate_values_and_weights, if_neg (by simp), if_neg (by simp),
      if_neg (by norm_num), hfb]
  have hr := get_stacked_quantile_ok [4, 6] [1, 3] (1 / 2) (by norm_num)
    (by norm_num) (by simp) (by simp)
    (fun x hx => by rcases List.mem_pair.mp hx with rfl | rfl <;> norm_num)
  rw [hfb] at hr
  exact ⟨_, hr, C2_result_form _ _ _ _ _ _ hval hr⟩

/-! ## Scaling lemmas for claim C3 -/

lemma getD_map_mul (c : ℚ) (l : List ℚ) (i : ℕ) :
    (l.map (fun x => c * x)).getD i 0 = c * l.getD i 0 := by
  induction l generalizing i with
  | nil => simp
  | cons a t ih =>
    cases i with
    | zero => simp
    | succ j => simpa using ih j

lemma getLastD_map_mul (c : ℚ) (l : List ℚ) :
    (l.map (fun x => c * x)).getLastD 0 = c * l.getLastD 0 := by
  rw [getLastD_eq_getD, getLastD_eq_getD, List.length_map, getD_map_mul]

lemma any_neg_map_mul (c : ℚ) (hc : 0 < c) (ws : List ℚ) :
    (ws.map (fun w => c * w)).any (fun w => decide (w < 0)) =
      ws.any (fun w => decide (w < 0)) := by
  induction ws with
  | nil => rfl
  | cons w t ih =>
    rw [List.map_cons, List.any_cons, List.any_cons, ih,
      decide_eq_decide.mpr ?_]
    constructor
    · intro h
      by_contra hw
      push_neg at hw
      exact absurd (mul_nonneg hc.le hw) (not_le.mpr h)
    · intro h
      exact mul_neg_of_pos_of_neg hc h

lemma all_zero_map_mul (c : ℚ) (hc : c ≠ 0) (ws : List ℚ) :
    (ws.map (fun w => c * w)).all (fun w => w == 0) =
      ws.all (fun w => w == 0) := by
  induction ws with
  | nil => rfl
  | cons w t ih =>
    rw [List.map_cons, List.all_cons, List.all_cons, ih]
    have : ((c * w == 0) : Bool) = ((w == 0) : Bool) := by
      rw [show ((c * w == 0) : Bool) = decide (c * w = 0) from rfl,
        show ((w == 0) : Bool) = decide (w = 0) from rfl, decide_eq_decide]
      constructor
      · intro h
        rcases mul_eq_zero.mp h with h | h
        · exact absurd h hc
        · exact h
      · intro h
        rw [h, mul_zero]
    rw [this]

lemma survivingPairs_map_mul (c : ℚ) (hc : c ≠ 0) (vs ws : List ℚ) :
    survivingPairs vs (ws.map (fun w => c * w)) =
      (survivingPairs vs ws).map (fun p => (p.1, c * p.2)) := by
  rw [survivingPairs, survivingPairs, List.zip_map_right, List.filter_map]
  have hcong : ∀ x ∈ vs.zip ws,
      ((fun p : ℚ × ℚ => decide (p.2 ≠ 0)) ∘ Prod.map id (fun w => c * w)) x =
        (fun p : ℚ × ℚ => decide (p.2 ≠ 0)) x := by
    rintro ⟨a, b⟩ _
    simp only [Function.comp_apply, Prod.map_apply, id_eq]
    rw [decide_eq_decide]
    constructor
    · intro h h0
      exact h (by rw [h0, mul_zero])
    · intro h h0
      rcases mul_eq_zero.mp h0 with h1 | h1
      · exact hc h1
      · exact h h1
  rw [List.filter_congr hcong]
  rfl

lemma map_fst_scale (c : ℚ) (P : List (ℚ × ℚ)) :
    (P.map (fun p => (p.1, c * p.2))).map Prod.fst = P.map Prod.fst := by
  rw [List.map_map]
  rfl

lemma map_snd_scale (c : ℚ) (P : List (ℚ × ℚ)) :
    (P.map (fun p => (p.1, c * p.2))).map Prod.snd =
      (P.map Prod.snd).map (fun x => c * x) := by
  rw [List.map_map, List.map_map]
  rfl

lemma sortedVals_scale (c : ℚ) (P : List (ℚ × ℚ)) :
    sortedVals (P.map (fun p => (p.1, c * p.2))) = sortedVals P := by
  rw [sortedVals_def, sortedVals_def, map_fst_scale]

lemma sortedWts_scale (c : ℚ) (P : List (ℚ × ℚ)) :
    sortedWts (P.map (fun p => (p.1, c * p.2))) =
      (sortedWts P).map (fun x => c * x) := by
  rw [sortedWts_def, sortedWts_def, map_fst_scale, map_snd_scale]
  simp only [getD_map_mul]
  rw [List.map_map]
  rfl

lemma cumWts_scale (c : ℚ) (P : List (ℚ × ℚ)) :
    cumWts (P.map (fun p => (p.1, c * p.2))) =
      (cumWts P).map (fun x => c * x) := by
  rw [cumWts, cumWts, sortedWts_scale, np_cumsum_map_mul]

lemma targetOf_scale (c : ℚ) (P : List (ℚ × ℚ)) (q : ℚ) :
    targetOf (P.map (fun p => (p.1, c * p.2))) q = c * targetOf P q := by
  rw [targetOf, targetOf, cumWts_scale, getLastD_map_mul]
  ring

lemma sqIndex_scale (c : ℚ) (hc : 0 < c) (P : List (ℚ × ℚ)) (q : ℚ) :
    sqIndex (P.map (fun p => (p.1, c * p.2))) q = sqIndex P q := by
  rw [sqIndex, sqIndex, cumWts_scale, targetOf_scale, np_searchsorted_map_mul c hc]

lemma stackedResult_scale (c : ℚ) (hc : 0 < c) (P : List (ℚ × ℚ)) (q : ℚ)
    (hb : boundaryTest (P.map (fun p => (p.1, c * p.2))) q = boundaryTest P q) :
    stackedResult (P.map (fun p => (p.1, c * p.2))) q = stackedResult P q := by
  rw [stackedResult, stackedResult, sqIndex_scale c hc, sortedVals_scale, hb]


/-! ## Claim C3 -/

/-- C3 (amended): scaling all weights by a positive constant never changes
the search index the engine selects, and the result is unchanged whenever
the 1e-9-tolerance boundary test returns the same verdict at both scales;
inside the tolerance band the verdicts can differ and the result can
change. -/
theorem C3_scale_invariance (vs ws : List ℚ) (c q : ℚ) (hc : 0 < c)
    (hb : boundaryTest (survivingPairs vs
            (fallbackWeights (ws.map (fun w => c * w)))) q =
          boundaryTest (survivingPairs vs (fallbackWeights ws)) q) :
    sqIndex (survivingPairs vs (fallbackWeights (ws.map (fun w => c * w)))) q =
      sqIndex (survivingPairs vs (fallbackWeights ws)) q ∧
    get_stacked_quantile (.vec vs) (.vec (ws.map (fun w => c * w))) q =
      get_stacked_quantile (.vec vs) (.vec ws) q := by
  have hcne : c ≠ 0 := hc.ne'
  by_cases hz : ws.all (fun w => w == 0) = true
  · -- all-zero weights: both sides fall back to all-ones
    have hfb1 : fallbackWeights (ws.map (fun w => c * w)) = fallbackWeights ws := by
      rw [fallbackWeights, fallbackWeights, if_pos ((all_zero_map_mul c hcne ws).trans hz),
        if_pos hz, List.length_map]
    refine ⟨by rw [hfb1], ?_⟩
    rw [get_stacked_quantile, get_stacked_quantile]
    by_cases hq : q < 0 ∨ 1 < q
    · rw [if_pos hq, if_pos hq]
    · rw [if_neg hq, if_neg hq]
      by_cases h0 : vs.length = 0
      · rw [validate_values_and_weights, validate_values_and_weights,
          if_pos h0, if_pos h0]
      · by_cases hlen : vs.length ≠ ws.length
        · rw [validate_values_and_weights, validate_values_and_weights,
            if_neg h0, if_neg h0, if_pos (by rwa [List.length_map]), if_pos hlen]
        · have hnoneg : ws.any (fun w => decide (w < 0)) = false := by
            rw [List.any_eq_false]
            intro x hx
            rw [List.all_eq_true] at hz
            have := hz x hx
            rw [show ((x == 0) : Bool) = decide (x = 0) from rfl] at this
            simp only [decide_eq_true_eq] at this ⊢
            rw [this]
            exact lt_irrefl 0
          rw [validate_values_and_weights, validate_values_and_weights,
            if_neg h0, if_neg h0, if_neg (by rwa [List.length_map]), if_neg hlen,
            if_neg (by rw [any_neg_map_mul c hc, hnoneg]; simp),
            if_neg (by rw [hnoneg]; simp), hfb1]
  · -- some nonzero weight: the fallback is the identity on both sides
    have hfb1 : fallbackWeights (ws.map (fun w => c * w)) = ws.map (fun w => c * w) := by
      rw [fallbackWeights, if_neg (by rw [all_zero_map_mul c hcne ws]; exact hz)]
    have hfb2 : fallbackWeights ws = ws := by
      rw [fallbackWeights, if_neg hz]
    rw [hfb1, hfb2] at hb ⊢
    rw [survivingPairs_map_mul c hcne] at hb ⊢
    refine ⟨sqIndex_scale c hc _ q, ?_⟩
    rw [get_stacked_quantile, get_stacked_quantile]
    by_cases hq : q < 0 ∨ 1 < q
    · rw [if_pos hq, if_pos hq]
    · rw [if_neg hq, if_neg hq]
      by_cases h0 : vs.length = 0
      · rw [validate_values_and_weights, validate_values_and_weights,
          if_pos h0, if_pos h0]
      · by_cases hlen : vs.length ≠ ws.length
        · rw [validate_values_and_weights, validate_values_and_weights,
            if_neg h0, if_neg h0, if_pos (by rwa [List.length_map]), if_pos hlen]
        · by_cases hany : ws.any (fun w => decide (w < 0)) = true
          · rw [validate_values_and_weights, validate_values_and_weights,
              if_neg h0, if_neg h0, if_neg (by rwa [List.length_map]), if_neg hlen,
              if_pos (by rwa [any_neg_map_mul c hc]), if_pos hany]
          · rw [validate_values_and_weights, validate_values_and_weights,
              if_neg h0, if_neg h0, if_neg (by rwa [List.length_map]), if_neg hlen,
              if_neg (by rwa [any_neg_map_mul c hc]), if_neg hany, hfb1, hfb2]
            show (Except.ok (stackedResult
                (survivingPairs vs (ws.map (fun w => c * w))) q) : Except SQError ℚ) =
              Except.ok (stackedResult (survivingPairs vs ws) q)
            rw [Except.ok.injEq, survivingPairs_map_mul c hcne]
            exact stackedResult_scale c hc _ q hb

/-! ## Concrete evaluation helpers -/

lemma np_argsort_pair (a b : ℚ) (h : a ≤ b) : np_argsort [a, b] = [0, 1] := by
  have hr : List.range ([a, b].length) = [0, 1] := rfl
  rw [np_argsort, hr]
  rw [show List.insertionSort (argsortLe [a, b]) [0, 1] =
      List.orderedInsert (argsortLe [a, b]) 0
        (List.orderedInsert (argsortLe [a, b]) 1 []) from rfl]
  rw [List.orderedInsert, List.orderedInsert, if_pos]
  rcases lt_or_eq_of_le h with hlt | heq
  · exact Or.inl (by simpa [argsortLe] using hlt)
  · exact Or.inr ⟨by simpa [argsortLe] using heq, by norm_num⟩

lemma sortedVals_pair (a b w1 w2 : ℚ) (h : a ≤ b) :
    sortedVals [(a, w1), (b, w2)] = [a, b] := by
  rw [sortedVals_def, show ([(a, w1), (b, w2)].map Prod.fst) = [a, b] from rfl,
    np_argsort_pair a b h]
  rfl

lemma sortedWts_pair (a b w1 w2 : ℚ) (h : a ≤ b) :
    sortedWts [(a, w1), (b, w2)] = [w1, w2] := by
  rw [sortedWts_def, show ([(a, w1), (b, w2)].map Prod.fst) = [a, b] from rfl,
    np_argsort_pair a b h]
  rfl

lemma cumWts_pair (a b w1 w2 : ℚ) (h : a ≤ b) :
    cumWts [(a, w1), (b, w2)] = [w1, w1 + w2] := by
  rw [cumWts, sortedWts_pair a b w1 w2 h, np_cumsum, cumsumFrom, cumsumFrom,
    cumsumFrom]
  norm_num

lemma targetOf_pair (a b w1 w2 q : ℚ) (h : a ≤ b) :
    targetOf [(a, w1), (b, w2)] q = (w1 + w2) * q := by
  rw [targetOf, cumWts_pair a b w1 w2 h]
  rfl

lemma survivingPairs_pair (a b w1 w2 : ℚ) (h1 : w1 ≠ 0) (h2 : w2 ≠ 0) :
    survivingPairs [a, b] [w1, w2] = [(a, w1), (b, w2)] := by
  rw [survivingPairs]
  rw [show ([a, b].zip [w1, w2]) = [(a, w1), (b, w2)] from rfl]
  rw [List.filter_cons_of_pos (by simpa using h1),
    List.filter_cons_of_pos (by simpa using h2)]
  rfl

/-- The decision block on a two-pair input with the values in order. -/
lemma stackedResult_pair (a b w1 w2 q : ℚ) (hab : a ≤ b) :
    stackedResult [(a, w1), (b, w2)] q =
      (if np_searchsorted [w1, w1 + w2] ((w1 + w2) * q) = 0 then a
       else if np_searchsorted [w1, w1 + w2] ((w1 + w2) * q) = 2 then b
       else if np_isclose w1 ((w1 + w2) * q) then (a + b) / 2
       else b) := by
  have hsv : sortedVals [(a, w1), (b, w2)] = [a, b] := sortedVals_pair a b w1 w2 hab
  have hc : cumWts [(a, w1), (b, w2)] = [w1, w1 + w2] := cumWts_pair a b w1 w2 hab
  have ht : targetOf [(a, w1), (b, w2)] q = (w1 + w2) * q := targetOf_pair a b w1 w2 q hab
  have hidx : sqIndex [(a, w1), (b, w2)] q =
      np_searchsorted [w1, w1 + w2] ((w1 + w2) * q) := by
    rw [sqIndex, hc, ht]
  rw [stackedResult, hsv, hidx]
  by_cases h0 : np_searchsorted [w1, w1 + w2] ((w1 + w2) * q) = 0
  · rw [if_pos h0, if_pos h0]
    rfl
  · rw [if_neg h0, if_neg h0]
    by_cases h2 : np_searchsorted [w1, w1 + w2] ((w1 + w2) * q) = 2
    · rw [show ([a, b] : List ℚ).length = 2 from rfl, if_pos h2, if_pos h2]
      rfl
    · rw [show ([a, b] : List ℚ).length = 2 from rfl, if_neg h2, if_neg h2]
      have h1 : np_searchsorted [w1, w1 + w2] ((w1 + w2) * q) = 1 := by
        have := np_searchsorted_le_length [w1, w1 + w2] ((w1 + w2) * q)
        simp only [List.length_cons, List.length_nil] at this
        omega
      rw [boundaryTest, hc, ht, hidx, h1]
      rw [show ([w1, w1 + w2] : List ℚ).getD (1 - 1) 0 = w1 from rfl]
      by_cases hb : np_isclose w1 ((w1 + w2) * q) = true
      · rw [if_pos hb, if_pos hb]
        rfl
      · rw [if_neg hb, if_neg hb]
        rfl

/-- The decision block on a single surviving pair always returns its value. -/
lemma stackedResult_single (a w q : ℚ) : stackedResult [(a, w)] q = a := by
  have hsv : sortedVals [(a, w)] = [a] := rfl
  have hidx : sqIndex [(a, w)] q ≤ 1 := by
    have := np_searchsorted_le_length (cumWts [(a, w)]) (targetOf [(a, w)] q)
    rw [cumWts_length] at this
    exact this
  rw [stackedResult, hsv]
  by_cases h0 : sqIndex [(a, w)] q = 0
  · rw [if_pos h0]
    rfl
  · rw [if_neg h0, show ([a] : List ℚ).length = 1 from rfl, if_pos (by omega)]
    rfl


lemma boundaryTest_pair (a b w1 w2 q : ℚ) (hab : a ≤ b) :
    boundaryTest [(a, w1), (b, w2)] q =
      np_isclose ([w1, w1 + w2].getD
        (np_searchsorted [w1, w1 + w2] ((w1 + w2) * q) - 1) 0) ((w1 + w2) * q) := by
  rw [boundaryTest, sqIndex, cumWts_pair a b w1 w2 hab, targetOf_pair a b w1 w2 q hab]

/-- C3 counterexample: weights [1, 1 + 3·10⁻⁹] at the median give the
boundary average 3/2, but scaling the weights by 1000 moves the boundary
gap outside the (partly absolute) 1e-9 tolerance and the result becomes 2. -/
theorem C3_counterexample :
    (0 : ℚ) < 1000 ∧
    get_stacked_quantile (.vec [1, 2]) (.vec [1, 1000000003 / 1000000000]) (1 / 2) =
      .ok (3 / 2) ∧
    get_stacked_quantile (.vec [1, 2])
        (.vec ([1, 1000000003 / 1000000000].map (fun w => 1000 * w))) (1 / 2) =
      .ok 2 := by
  refine ⟨by norm_num, ?_, ?_⟩
  · have hfb : fallbackWeights [1, 1000000003 / 1000000000] =
        [1, 1000000003 / 1000000000] := by
      rw [fallbackWeights, if_neg]
      simp
    have hr := get_stacked_quantile_ok [1, 2] [1, 1000000003 / 1000000000] (1 / 2)
      (by norm_num) (by norm_num) (by simp) (by simp)
      (fun x hx => by rcases List.mem_pair.mp hx with rfl | rfl <;> norm_num)
    rw [hfb, survivingPairs_pair 1 2 _ _ (by norm_num) (by norm_num),
      stackedResult_pair 1 2 _ _ _ (by norm_num)] at hr
    rw [hr]
    have hss : np_searchsorted [(1 : ℚ), 1 + 1000000003 / 1000000000]
        ((1 + 1000000003 / 1000000000) * (1 / 2)) = 1 := by
      rw [np_searchsorted, if_pos (by norm_num), np_searchsorted,
        if_neg (by norm_num)]
    rw [hss, if_neg (by omega), if_neg (by omega), if_pos]
    · norm_num
    · show decide _ = true
      rw [decide_eq_true_eq]
      rw [show (1 : ℚ) - (1 + 1000000003 / 1000000000) * (1 / 2) =
        -(3 / 2000000000) by ring]
      rw [abs_of_nonpos (by norm_num), abs_of_nonneg (by norm_num)]
      norm_num
  · rw [show ([1, 1000000003 / 1000000000] : List ℚ).map (fun w => 1000 * w) =
      [1000, 1000000003 / 1000000] by norm_num]
    have hfb : fallbackWeights [1000, 1000000003 / 1000000] =
        [1000, 1000000003 / 1000000] := by
      rw [fallbackWeights, if_neg]
      simp
    have hr := get_stacked_quantile_ok [1, 2] [1000, 1000000003 / 1000000] (1 / 2)
      (by norm_num) (by norm_num) (by simp) (by simp)
      (fun x hx => by rcases List.mem_pair.mp hx with rfl | rfl <;> norm_num)
    rw [hfb, survivingPairs_pair 1 2 _ _ (by norm_num) (by norm_num),
      stackedResult_pair 1 2 _ _ _ (by norm_num)] at hr
    rw [hr]
    have hss : np_searchsorted [(1000 : ℚ), 1000 + 1000000003 / 1000000]
        ((1000 + 1000000003 / 1000000) * (1 / 2)) = 1 := by
      rw [np_searchsorted, if_pos (by norm_num), np_searchsorted,
        if_neg (by norm_num)]
    rw [hss, if_neg (by omega), if_neg (by omega), if_neg]
    show ¬(decide _ = true)
    rw [decide_eq_true_eq]
    intro hcl
    rw [show (1000 : ℚ) - (1000 + 1000000003 / 1000000) * (1 / 2) =
      -(3 / 2000000) by ring] at hcl
    rw [abs_of_nonpos (by norm_num), abs_of_nonneg (by norm_num)] at hcl
    norm_num at hcl

/-- C3 witness: weights [1, 3] scaled by 10, at the median. -/
theorem C3_scale_invariance_witness :
    boundaryTest (survivingPairs [1, 2]
        (fallbackWeights ([1, 3].map (fun w => 10 * w)))) (1 / 2) =
      boundaryTest (survivingPairs [1, 2] (fallbackWeights [1, 3])) (1 / 2) ∧
    get_stacked_quantile (.vec [1, 2]) (.vec ([1, 3].map (fun w => 10 * w))) (1 / 2) =
      get_stacked_quantile (.vec [1, 2]) (.vec [1, 3]) (1 / 2) := by
  have hmap : ([1, 3] : List ℚ).map (fun w => 10 * w) = [10, 30] := by norm_num
  have hfb1 : fallbackWeights [10, 30] = [10, 30] := by
    rw [fallbackWeights, if_neg]
    simp
  have hfb2 : fallbackWeights [1, 3] = [1, 3] := by
    rw [fallbackWeights, if_neg]
    simp
  have hb : boundaryTest (survivingPairs [1, 2]
      (fallbackWeights ([1, 3].map (fun w => 10 * w)))) (1 / 2) =
      boundaryTest (survivingPairs [1, 2] (fallbackWeights [1, 3])) (1 / 2) := by
    rw [hmap, hfb1, hfb2, survivingPairs_pair 1 2 10 30 (by norm_num) (by norm_num),
      survivingPairs_pair 1 2 1 3 (by norm_num) (by norm_num),
      boundaryTest_pair 1 2 10 30 _ (by norm_num),
      boundaryTest_pair 1 2 1 3 _ (by norm_num)]
    have hss1 : np_searchsorted [(10 : ℚ), 10 + 30] ((10 + 30) * (1 / 2)) = 1 := by
      rw [np_searchsorted, if_pos (by norm_num), np_searchsorted,
        if_neg (by norm_num)]
    have hss2 : np_searchsorted [(1 : ℚ), 1 + 3] ((1 + 3) * (1 / 2)) = 1 := by
      rw [np_searchsorted, if_pos (by norm_num), np_searchsorted,
        if_neg (by norm_num)]
    rw [hss1, hss2]
    have h1 : np_isclose ([(10 : ℚ), 10 + 30].getD (1 - 1) 0) ((10 + 30) * (1 / 2)) =
        false := by
      show decide _ = false
      rw [decide_eq_false_iff_not]
      intro hcl
      rw [show ([(10 : ℚ), 10 + 30].getD (1 - 1) 0) = 10 from rfl] at hcl
      rw [show (10 : ℚ) - (10 + 30) * (1 / 2) = -10 by ring] at hcl
      rw [abs_of_nonpos (by norm_num), abs_of_nonneg (by norm_num)] at hcl
      norm_num at hcl
    have h2 : np_isclose ([(1 : ℚ), 1 + 3].getD (1 - 1) 0) ((1 + 3) * (1 / 2)) =
        false := by
      show decide _ = false
      rw [decide_eq_false_iff_not]
      intro hcl
      rw [show ([(1 : ℚ), 1 + 3].getD (1 - 1) 0) = 1 from rfl] at hcl
      rw [show (1 : ℚ) - (1 + 3) * (1 / 2) = -1 by ring] at hcl
      rw [abs_of_nonpos (by norm_num), abs_of_nonneg (by norm_num)] at hcl
      norm_num at hcl
    rw [h1, h2]
  exact ⟨hb, (C3_scale_invariance [1, 2] [1, 3] 10 (1 / 2) (by norm_num) hb).2⟩


/-! ## Claim C6 -/

lemma mapM_ok {α β : Type} (f : α → Except SQError β) (g : α → β) (l : List α)
    (h : ∀ x ∈ l, f x = .ok (g x)) : l.mapM f = .ok (l.map g) := by
  induction l with
  | nil => rfl
  | cons a t ih =>
    rw [List.mapM_cons, List.map_cons, h a (by simp),
      ih (fun x hx => h x (by simp [hx]))]
    rfl

lemma getD_map_range {α : Type} (m j : ℕ) (F : ℕ → α) (d : α) (h : j < m) :
    ((List.range m).map F).getD j d = F j := by
  rw [List.getD_eq_getElem _ _ (by simpa using h)]
  simp

/-- C6: on an `N × m` values matrix and an `N × 1` weights matrix with
equal leading dimension `N > 0`, non-negative weights and a quantile in
[0, 1], `get_stacked_quantiles` returns exactly `m` results, and the
`j`-th result is `get_stacked_quantile` of the `j`-th column of the
values against the flattened weights. -/
theorem C6_columnwise (values weights : List (List ℚ)) (q : ℚ) (m : ℕ)
    (hne : values ≠ [])
    (hN : values.length = weights.length)
    (hrows : ∀ row ∈ values, row.length = m)
    (hwrows : ∀ row ∈ weights, row.length = 1)
    (hq0 : 0 ≤ q) (hq1 : q ≤ 1)
    (hnn : ∀ x ∈ weights.flatten, 0 ≤ x) :
    ∃ out, get_stacked_quantiles values weights q = .ok out ∧
      out.length = m ∧
      ∀ j, j < m →
        get_stacked_quantile (.vec (values.map (fun row => row.getD j 0)))
          (.vec weights.flatten) q = .ok (out.getD j 0) := by
  have hm : (values.headD []).length = m := by
    obtain ⟨r, t, rfl⟩ := List.exists_cons_of_ne_nil hne
    exact hrows r (by simp)
  have hflat : weights.flatten.length = values.length := by
    rw [List.length_flatten, hN]
    have hrep : weights.map List.length = List.replicate weights.length 1 :=
      List.eq_replicate_iff.mpr ⟨by simp, fun x hx => by
        obtain ⟨row, hrow, rfl⟩ := List.mem_map.mp hx
        exact hwrows row hrow⟩
    rw [hrep, List.sum_replicate, smul_eq_mul, mul_one]
  have hcol : ∀ x ∈ (List.range (values.headD []).length).map
      (fun j => values.map (fun row => row.getD j 0)),
      get_stacked_quantile (.vec x) (.vec weights.flatten) q =
        .ok (stackedResult
          (survivingPairs x (fallbackWeights weights.flatten)) q) := by
    intro x hx
    obtain ⟨j, _, rfl⟩ := List.mem_map.mp hx
    refine get_stacked_quantile_ok _ _ q hq0 hq1 ?_ (by rw [List.length_map, hflat]) hnn
    intro hnil
    have := congrArg List.length hnil
    rw [List.length_map] at this
    exact hne (List.length_eq_zero.mp this)
  refine ⟨((List.range (values.headD []).length).map
      (fun j => values.map (fun row => row.getD j 0))).map
      (fun x => stackedResult
        (survivingPairs x (fallbackWeights weights.flatten)) q), ?_, ?_, ?_⟩
  · rw [get_stacked_quantiles, if_neg (by omega)]
    exact mapM_ok _ _ _ hcol
  · rw [List.length_map, List.length_map, List.length_range, hm]
  · intro j hj
    rw [List.map_map,
      getD_map_range _ j _ 0 (by rw [hm]; exact hj)]
    refine get_stacked_quantile_ok _ _ q hq0 hq1 ?_ (by rw [List.length_map, hflat]) hnn
    intro hnil
    have := congrArg List.length hnil
    rw [List.length_map] at this
    exact hne (List.length_eq_zero.mp this)

/-- C6 witness: a 2 × 2 values matrix with 2 × 1 weights. -/
theorem C6_columnwise_witness :
    ∃ out, get_stacked_quantiles [[1, 10], [3, 30]] [[1], [1]] (1 / 2) = .ok out ∧
      out.length = 2 ∧
      ∀ j, j < 2 →
        get_stacked_quantile
          (.vec ([[(1 : ℚ), 10], [3, 30]].map (fun row => row.getD j 0)))
          (.vec ([[(1 : ℚ)], [1]] : List (List ℚ)).flatten) (1 / 2) =
          .ok (out.getD j 0) := by
  refine C6_columnwise [[1, 10], [3, 30]] [[1], [1]] (1 / 2) 2 (by simp) (by simp)
    ?_ ?_ (by norm_num) (by norm_num) ?_
  · intro row hrow
    rcases List.mem_pair.mp hrow with rfl | rfl <;> rfl
  · intro row hrow
    rcases List.mem_pair.mp hrow with rfl | rfl <;> rfl
  · intro x hx
    rw [show ([[(1 : ℚ)], [1]] : List (List ℚ)).flatten = [1, 1] from rfl] at hx
    rcases List.mem_pair.mp hx with rfl | rfl <;> norm_num


/-! ## Multiset expansion with natural-number weights (for claim C1) -/

/-- Expansion of (value, count) pairs into the repeated multiset. -/
def expandPairs (P : List (ℚ × ℕ)) : List ℚ :=
  P.flatMap (fun p => List.replicate p.2 p.1)

/-- Cumulative sums over ℕ. -/
def ncumsumFrom (acc : ℕ) : List ℕ → List ℕ
  | [] => []
  | w :: ws => (acc + w) :: ncumsumFrom (acc + w) ws

/-- Cumulative sums over ℕ starting at 0. -/
def ncumsum (ws : List ℕ) : List ℕ := ncumsumFrom 0 ws

/-- The number of entries of `C` that are `≤ p`. -/
def cntLe (C : List ℕ) (p : ℕ) : ℕ := C.countP (fun c => decide (c ≤ p))

lemma repeatByWeights_eq_expandPairs (vals : List ℚ) (nws : List ℕ) :
    repeatByWeights vals nws = expandPairs (vals.zip nws) := rfl

lemma expandPairs_length (P : List (ℚ × ℕ)) :
    (expandPairs P).length = (P.map Prod.snd).sum := by
  induction P with
  | nil => rfl
  | cons a t ih =>
    rw [expandPairs, List.flatMap_cons, List.length_append, List.length_replicate,
      List.map_cons, List.sum_cons, ← expandPairs, ih]

lemma getD_replicate (n : ℕ) (x : ℚ) (i : ℕ) (h : i < n) :
    (List.replicate n x).getD i 0 = x := by
  rw [List.getD_eq_getElem?_getD, List.getElem?_replicate, if_pos h]
  rfl

lemma expandPairs_getD_lt (v : ℚ) (w : ℕ) (rest : List (ℚ × ℕ)) (p : ℕ)
    (hp : p < w) :
    (expandPairs ((v, w) :: rest)).getD p 0 = v := by
  rw [expandPairs, List.flatMap_cons, ← expandPairs,
    List.getD_append _ _ _ _ (by rw [List.length_replicate]; exact hp),
    getD_replicate w v p hp]

lemma expandPairs_getD_ge (v : ℚ) (w : ℕ) (rest : List (ℚ × ℕ)) (p : ℕ)
    (hp : w ≤ p) :
    (expandPairs ((v, w) :: rest)).getD p 0 = (expandPairs rest).getD (p - w) 0 := by
  rw [expandPairs, List.flatMap_cons, ← expandPairs,
    List.getD_append_right _ _ _ _ (by rw [List.length_replicate]; exact hp),
    List.length_replicate]

lemma ncumsumFrom_shift (a : ℕ) (l : List ℕ) :
    ncumsumFrom a l = (ncumsum l).map (fun c => a + c) := by
  suffices h : ∀ b, ncumsumFrom (a + b) l = (ncumsumFrom b l).map (fun c => a + c) by
    have := h 0
    rw [Nat.add_zero] at this
    exact this
  induction l with
  | nil => intro b; rfl
  | cons w t ih =>
    intro b
    rw [ncumsumFrom, ncumsumFrom, List.map_cons, Nat.add_assoc, ih (b + w)]

lemma ncumsum_length (l : List ℕ) : (ncumsum l).length = l.length := by
  suffices h : ∀ a, (ncumsumFrom a l).length = l.length from h 0
  induction l with
  | nil => intro a; rfl
  | cons w t ih => intro a; rw [ncumsumFrom, List.length_cons, ih, List.length_cons]

lemma ncumsum_cons (w : ℕ) (t : List ℕ) :
    ncumsum (w :: t) = w :: (ncumsum t).map (fun c => w + c) := by
  rw [ncumsum, ncumsumFrom, Nat.zero_add, ← ncumsumFrom_shift]

/-- cntLe on the cumulative sums of a (value, positive count) list locates
the pair containing position `p` of the expansion. -/
lemma expandPairs_getD (P : List (ℚ × ℕ)) (hpos : ∀ pr ∈ P, 0 < pr.2) (p : ℕ)
    (hp : p < (P.map Prod.snd).sum) :
    (expandPairs P).getD p 0 =
      (P.map Prod.fst).getD (cntLe (ncumsum (P.map Prod.snd)) p) 0 := by
  induction P generalizing p with
  | nil => simp at hp
  | cons pr rest ih =>
    obtain ⟨v, w⟩ := pr
    simp only [List.map_cons, List.sum_cons] at hp ⊢
    rw [ncumsum_cons, cntLe, List.countP_cons]
    by_cases hpw : p < w
    · have h1 : ((ncumsum (rest.map Prod.snd)).map (fun c => w + c)).countP
          (fun c => decide (c ≤ p)) = 0 := by
        rw [List.countP_eq_zero]
        intro c hc
        obtain ⟨c', _, rfl⟩ := List.mem_map.mp hc
        simp only [decide_eq_true_eq]
        omega
      rw [h1, if_neg (by simp only [decide_eq_true_eq]; omega)]
      rw [expandPairs_getD_lt v w rest p hpw]
      rfl
    · push_neg at hpw
      have h1 : ((ncumsum (rest.map Prod.snd)).map (fun c => w + c)).countP
          (fun c => decide (c ≤ p)) =
          cntLe (ncumsum (rest.map Prod.snd)) (p - w) := by
        rw [List.countP_map, cntLe]
        apply List.countP_congr
        intro c _
        simp only [Function.comp_apply, decide_eq_true_eq]
        constructor
        · intro h; omega
        · intro h; omega
      rw [h1, if_pos (by simp only [decide_eq_true_eq]; omega)]
      rw [expandPairs_getD_ge v w rest p hpw]
      have hp' : p - w < (rest.map Prod.snd).sum := by omega
      rw [ih (fun q hq => hpos q (by simp [hq])) (p - w) hp']
      rw [List.getD_cons_succ]


/-! ## Cast bridges between the ℚ pipeline and the ℕ expansion -/

lemma cumsumFrom_cast (a : ℕ) (l : List ℕ) :
    cumsumFrom (a : ℚ) (l.map (Nat.cast : ℕ → ℚ)) =
      (ncumsumFrom a l).map (Nat.cast : ℕ → ℚ) := by
  induction l generalizing a with
  | nil => rfl
  | cons w t ih =>
    rw [List.map_cons, cumsumFrom, ncumsumFrom, List.map_cons]
    rw [show ((a : ℚ) + ((w : ℕ) : ℚ)) = (((a + w : ℕ) : ℚ)) by push_cast; ring]
    rw [ih (a + w)]

lemma np_cumsum_cast (l : List ℕ) :
    np_cumsum (l.map (Nat.cast : ℕ → ℚ)) = (ncumsum l).map (Nat.cast : ℕ → ℚ) := by
  rw [np_cumsum, ncumsum, show ((0 : ℚ)) = ((0 : ℕ) : ℚ) by norm_num,
    cumsumFrom_cast 0 l]

lemma getLastD_map_cast (l : List ℕ) :
    (l.map (Nat.cast : ℕ → ℚ)).getLastD 0 = ((l.getLastD 0 : ℕ) : ℚ) := by
  rw [getLastD_eq_getD, getLastD_eq_getD, List.length_map, getD_map_cast]

lemma ncumsum_getD (l : List ℕ) (i : ℕ) (hi : i < l.length) :
    (ncumsum l).getD i 0 = (l.take (i + 1)).sum := by
  suffices h : ∀ a i, i < l.length → (ncumsumFrom a l).getD i 0 = a + (l.take (i + 1)).sum by
    have := h 0 i hi
    rw [Nat.zero_add] at this
    exact this
  clear hi i
  induction l with
  | nil => intro a i hi; simp at hi
  | cons w t ih =>
    intro a i hi
    cases i with
    | zero => simp [ncumsumFrom]
    | succ j =>
      rw [ncumsumFrom, List.getD_cons_succ, List.take_succ_cons, List.sum_cons,
        ih (a + w) j (by simpa using hi)]
      omega

lemma ncumsum_getLastD (l : List ℕ) (hl : l ≠ []) :
    (ncumsum l).getLastD 0 = l.sum := by
  have hlen : 0 < l.length := List.length_pos.mpr hl
  have hc : (ncumsum l).length = l.length := ncumsum_length l
  rw [getLastD_eq_getD, hc, ncumsum_getD l (l.length - 1) (by omega),
    show l.length - 1 + 1 = l.length by omega, List.take_length]

/-! ## cntLe arithmetic -/

lemma np_searchsorted_cast_cntLe (C : List ℕ) (hlt : C.Pairwise (· < ·))
    (t : ℚ) (p : ℕ) (hiff : ∀ c : ℕ, ((c : ℚ) ≤ t ↔ c ≤ p)) :
    np_searchsorted (C.map (Nat.cast : ℕ → ℚ)) t = cntLe C p := by
  have hsorted : (C.map (Nat.cast : ℕ → ℚ)).Pairwise (· ≤ ·) := by
    rw [List.pairwise_map]
    exact hlt.imp (fun h => Nat.cast_le.mpr h.le)
  rw [np_searchsorted_eq_countP _ t hsorted, List.countP_map, cntLe]
  apply List.countP_congr
  intro c _
  simp only [Function.comp_apply, decide_eq_true_eq]
  exact hiff c

lemma cntLe_le_length (C : List ℕ) (p : ℕ) : cntLe C p ≤ C.length :=
  List.countP_le_length _

lemma cntLe_lt_length (C : List ℕ) (p : ℕ) (hx : ∃ x ∈ C, p < x) :
    cntLe C p < C.length := by
  obtain ⟨x, hxm, hxp⟩ := hx
  refine lt_of_le_of_ne (cntLe_le_length C p) (fun h => ?_)
  have := List.countP_eq_length.mp h x hxm
  simp only [decide_eq_true_eq] at this
  omega

lemma cntLe_pos (C : List ℕ) (p : ℕ) (hx : ∃ x ∈ C, x ≤ p) : 0 < cntLe C p := by
  obtain ⟨x, hxm, hxp⟩ := hx
  exact List.countP_pos.mpr ⟨x, hxm, by simpa using hxp⟩

lemma cntLe_cons (c : ℕ) (t : List ℕ) (p : ℕ) :
    cntLe (c :: t) p = cntLe t p + (if c ≤ p then 1 else 0) := by
  rw [cntLe, List.countP_cons, ← cntLe]
  congr 1
  simp

lemma cntLe_succ_split (C : List ℕ) (a : ℕ) (ha : 1 ≤ a) (hnd : C.Nodup) :
    cntLe C a = cntLe C (a - 1) + (if a ∈ C then 1 else 0) := by
  induction C with
  | nil => rfl
  | cons c t ih =>
    rw [List.nodup_cons] at hnd
    rw [cntLe_cons, cntLe_cons, ih hnd.2]
    by_cases hca : c = a
    · have v1 : (if c ≤ a then 1 else 0) = 1 := if_pos hca.le
      have v2 : (if c ≤ a - 1 then 1 else 0) = 0 := if_neg (by omega)
      have v3 : (if a ∈ c :: t then 1 else 0) = 1 :=
        if_pos (by rw [List.mem_cons]; exact Or.inl hca.symm)
      have v4 : (if a ∈ t then 1 else 0) = 0 :=
        if_neg (fun h => hnd.1 (by rw [hca]; exact h))
      rw [v1, v2, v3, v4]
    · have v34 : (if a ∈ c :: t then 1 else 0) = (if a ∈ t then 1 else 0) := by
        by_cases h : a ∈ t
        · rw [if_pos h, if_pos (List.mem_cons_of_mem c h)]
        · rw [if_neg h, if_neg (fun hm => by
            rcases List.mem_cons.mp hm with h1 | h1
            · exact hca h1.symm
            · exact h h1)]
      have v12 : (if c ≤ a then 1 else 0) = (if c ≤ a - 1 then 1 else 0) := by
        by_cases h : c ≤ a - 1
        · rw [if_pos h, if_pos (by omega)]
        · rw [if_neg h, if_neg (by omega)]
      rw [v34, v12]
      omega

lemma cntLe_eq_succ_of_getElem (C : List ℕ) (hlt : C.Pairwise (· < ·)) (a j : ℕ)
    (hj : j < C.length) (hja : C[j] = a) : cntLe C a = j + 1 := by
  induction C generalizing j with
  | nil => simp at hj
  | cons c t ih =>
    rw [List.pairwise_cons] at hlt
    cases j with
    | zero =>
      simp only [List.getElem_cons_zero] at hja
      subst hja
      rw [cntLe, List.countP_cons, if_pos (by simp)]
      have h0 : t.countP (fun x => decide (x ≤ c)) = 0 := by
        rw [List.countP_eq_zero]
        intro x hx
        have := hlt.1 x hx
        simp only [decide_eq_true_eq]
        omega
      rw [← cntLe, cntLe, h0]
    | succ j' =>
      simp only [List.getElem_cons_succ] at hja
      have hj' : j' < t.length := by simpa using hj
      have hca : c < a := by
        have := hlt.1 (t[j']) (List.getElem_mem hj')
        omega
      rw [cntLe, List.countP_cons, if_pos (by simp only [decide_eq_true_eq]; omega),
        ← cntLe, ih hlt.2 j' hj' hja]

/-! ## Sortedness of the expansion -/

lemma mem_expandPairs (P : List (ℚ × ℕ)) (x : ℚ) (hx : x ∈ expandPairs P) :
    ∃ pr ∈ P, x = pr.1 := by
  rw [expandPairs, List.mem_flatMap] at hx
  obtain ⟨pr, hpr, hxr⟩ := hx
  exact ⟨pr, hpr, List.eq_of_mem_replicate hxr⟩

lemma expandPairs_sorted (P : List (ℚ × ℕ))
    (h : List.Sorted (· ≤ ·) (P.map Prod.fst)) :
    List.Sorted (· ≤ ·) (expandPairs P) := by
  induction P with
  | nil => exact List.Pairwise.nil
  | cons pr rest ih =>
    rw [List.map_cons, List.sorted_cons] at h
    rw [expandPairs, List.flatMap_cons, ← expandPairs]
    rw [List.Sorted, List.pairwise_append]
    refine ⟨List.pairwise_replicate.mpr (Or.inr (le_refl _)), ih h.2, ?_⟩
    intro x hx y hy
    rw [List.eq_of_mem_replicate hx]
    obtain ⟨q, hq, rfl⟩ := mem_expandPairs rest y hy
    exact h.1 q.1 (List.mem_map.mpr ⟨q, hq, rfl⟩)


/-! ## Helpers for the C1 main theorem -/

lemma getD_mem {α : Type} (l : List α) (d : α) (i : ℕ) (h : i < l.length) :
    l.getD i d ∈ l := by
  rw [List.getD_eq_getElem l d h]
  exact List.getElem_mem h

lemma survivingPairs_of_pos (av aw : List ℚ) (hnz : ∀ x ∈ aw, x ≠ 0) :
    survivingPairs av aw = av.zip aw := by
  rw [survivingPairs]
  apply List.filter_eq_self.mpr
  intro p hp
  have := (List.of_mem_zip hp).2
  simpa using hnz _ this

lemma np_isclose_self (t : ℚ) : np_isclose t t = true := by
  show decide _ = true
  rw [decide_eq_true_eq, sub_self, abs_zero]
  positivity

lemma np_isclose_false_of_gap (x t : ℚ) (ht0 : 0 ≤ t) (htb : t ≤ 50000000)
    (hgap : 1 / 2 ≤ |x - t|) : np_isclose x t = false := by
  show decide _ = false
  rw [decide_eq_false_iff_not]
  intro h
  rw [abs_of_nonneg ht0] at h
  have hm : (1 : ℚ) / 1000000000 * t ≤ 1 / 1000000000 * 50000000 :=
    mul_le_mul_of_nonneg_left htb (by norm_num)
  have := hgap.trans h
  norm_num at hm ⊢
  linarith


/-! ## Claim C1 -/

/-- C1 (amended): for every non-empty values list with strictly positive
integer weights of total at most 10⁸, the stacked median equals the
unweighted median of the multiset obtained by repeating each value its
weight many times.  (For totals around 2·10⁹ and beyond, the partly
absolute 1e-9 boundary tolerance can fire spuriously; see the
counterexample.) -/
theorem C1_integer_weight_median (vals : List ℚ) (nws : List ℕ)
    (hne : vals ≠ []) (hlen : vals.length = nws.length)
    (hpos : ∀ x ∈ nws, 0 < x) (hW : nws.sum ≤ 100000000) :
    get_stacked_quantile (.vec vals) (.vec (nws.map (Nat.cast : ℕ → ℚ))) (1 / 2) =
      .ok (unweightedMedian (repeatByWeights vals nws)) := by
  have hnwsne : nws ≠ [] := by
    intro h
    exact hne (List.length_eq_zero.mp (by rw [hlen, h]; rfl))
  have hcast_nn : ∀ x ∈ nws.map (Nat.cast : ℕ → ℚ), 0 ≤ x := by
    intro x hx
    obtain ⟨n, _, rfl⟩ := List.mem_map.mp hx
    positivity
  have hcast_nz : ∀ x ∈ nws.map (Nat.cast : ℕ → ℚ), x ≠ 0 := by
    intro x hx
    obtain ⟨n, hn, rfl⟩ := List.mem_map.mp hx
    exact_mod_cast (hpos n hn).ne'
  have hlen' : vals.length = (nws.map (Nat.cast : ℕ → ℚ)).length := by
    rw [List.length_map]
    exact hlen
  have hok := get_stacked_quantile_ok vals (nws.map (Nat.cast : ℕ → ℚ)) (1 / 2)
    (by norm_num) (by norm_num) hne hlen' hcast_nn
  have hfb : fallbackWeights (nws.map (Nat.cast : ℕ → ℚ)) =
      nws.map (Nat.cast : ℕ → ℚ) := by
    rw [fallbackWeights, if_neg]
    intro hall
    rw [List.all_eq_true] at hall
    obtain ⟨w0, t0, rfl⟩ := List.exists_cons_of_ne_nil hnwsne
    have hm : ((w0 : ℚ)) ∈ (w0 :: t0).map (Nat.cast : ℕ → ℚ) := by
      rw [List.map_cons]
      exact List.mem_cons_self _ _
    have := hall _ hm
    rw [show (((w0 : ℚ)) == 0) = decide ((w0 : ℚ) = 0) from rfl,
      decide_eq_true_eq] at this
    exact hcast_nz _ hm this
  have hP : survivingPairs vals (nws.map (Nat.cast : ℕ → ℚ)) =
      vals.zip (nws.map (Nat.cast : ℕ → ℚ)) := survivingPairs_of_pos _ _ hcast_nz
  rw [hok, hfb, hP, Except.ok.injEq]
  set P := vals.zip (nws.map (Nat.cast : ℕ → ℚ)) with hPdef
  set NP := (np_argsort vals).map (fun i => (vals.getD i 0, nws.getD i 0)) with hNP
  have hzipfst : P.map Prod.fst = vals := List.map_fst_zip _ _ (le_of_eq hlen')
  have hzipsnd : P.map Prod.snd = nws.map (Nat.cast : ℕ → ℚ) :=
    List.map_snd_zip _ _ (le_of_eq hlen'.symm)
  have hsv : sortedVals P = NP.map Prod.fst := by
    rw [sortedVals_def, hzipfst, hNP, List.map_map]
    rfl
  have hsw : sortedWts P = (NP.map Prod.snd).map (Nat.cast : ℕ → ℚ) := by
    rw [sortedWts_def, hzipfst, hzipsnd, hNP, List.map_map, List.map_map]
    apply List.map_congr_left
    intro i _
    simp only [Function.comp_apply]
    rw [getD_map_cast]
  have hcum : cumWts P = (ncumsum (NP.map Prod.snd)).map (Nat.cast : ℕ → ℚ) := by
    rw [cumWts, hsw, np_cumsum_cast]
  set C := ncumsum (NP.map Prod.snd) with hC
  set W := nws.sum with hWdef
  have hNPlen : NP.length = vals.length := by
    rw [hNP, List.length_map, np_argsort_length]
  have hClen : C.length = vals.length := by
    rw [hC, ncumsum_length, List.length_map, hNPlen]
  have hClpos : 0 < C.length := by
    rw [hClen]
    exact List.length_pos.mpr hne
  have hNPperm : NP.Perm (vals.zip nws) := by
    have h1 : NP.Perm ((List.range vals.length).map
        (fun i => (vals.getD i 0, nws.getD i 0))) := (np_argsort_perm vals).map _
    rw [range_map_getD_pair vals nws 0 0 hlen] at h1
    exact h1
  have hsnd_zip : (vals.zip nws).map Prod.snd = nws :=
    List.map_snd_zip _ _ (le_of_eq hlen.symm)
  have hNPsum : (NP.map Prod.snd).sum = W := by
    rw [(hNPperm.map Prod.snd).sum_eq, hsnd_zip]
  have hNPsndne : NP.map Prod.snd ≠ [] := by
    intro h
    have := congrArg List.length h
    rw [List.length_map, hNPlen] at this
    exact hne (List.length_eq_zero.mp this)
  have hNPpos : ∀ pr ∈ NP, 0 < pr.2 := by
    intro pr hpr
    rw [hNP] at hpr
    obtain ⟨i, hi, rfl⟩ := List.mem_map.mp hpr
    rw [np_argsort_mem] at hi
    exact hpos _ (getD_mem nws 0 i (by omega))
  have hW0 : 0 < W := List.sum_pos nws hpos hnwsne
  have hWQ : ((W : ℕ) : ℚ) ≤ 100000000 := by exact_mod_cast hW
  have htarget : targetOf P (1 / 2) = (W : ℚ) * (1 / 2) := by
    rw [targetOf, hcum, getLastD_map_cast, ncumsum_getLastD _ hNPsndne, hNPsum]
  have hCcast : np_cumsum ((NP.map Prod.snd).map (Nat.cast : ℕ → ℚ)) =
      C.map (Nat.cast : ℕ → ℚ) := np_cumsum_cast _
  have hqlt : (C.map (Nat.cast : ℕ → ℚ)).Pairwise (· < ·) := by
    rw [← hCcast]
    apply np_cumsum_pairwise_lt
    intro w hw
    obtain ⟨n, hn, rfl⟩ := List.mem_map.mp hw
    obtain ⟨pr, hpr, rfl⟩ := List.mem_map.mp hn
    exact_mod_cast hNPpos pr hpr
  have hClt : C.Pairwise (· < ·) :=
    (List.pairwise_map.mp hqlt).imp (fun h => by exact_mod_cast h)
  have hCnd : C.Nodup := hClt.imp (fun h => ne_of_lt h)
  have hlastC : C.getD (C.length - 1) 0 = W := by
    rw [← getLastD_eq_getD, hC, ncumsum_getLastD _ hNPsndne, hNPsum]
  have hWC : W ∈ C := by
    rw [← hlastC]
    exact getD_mem C 0 _ (by omega)
  have hsorted_exp : List.Sorted (· ≤ ·) (expandPairs NP) :=
    expandPairs_sorted NP (by rw [← hsv]; exact sortedVals_sorted P)
  have hexp_perm : (expandPairs NP).Perm (repeatByWeights vals nws) := by
    rw [repeatByWeights_eq_expandPairs]
    exact hNPperm.flatMap_right _
  have hsorteq : List.insertionSort (· ≤ ·) (repeatByWeights vals nws) =
      expandPairs NP :=
    List.eq_of_perm_of_sorted ((List.perm_insertionSort _ _).trans hexp_perm.symm)
      (List.sorted_insertionSort _ _) hsorted_exp
  have hrep_len : (repeatByWeights vals nws).length = W := by
    rw [← hexp_perm.length_eq, expandPairs_length, hNPsum]
  have hlen2 : (NP.map Prod.fst).length = C.length := by
    rw [List.length_map, hNPlen, hClen]
  rw [unweightedMedian, hrep_len, hsorteq]
  rcases Nat.mod_two_eq_zero_or_one W with hpar | hpar
  · -- even total weight
    rw [if_neg (by omega)]
    set a := W / 2 with ha
    have hWa : W = 2 * a := by omega
    have ha1 : 1 ≤ a := by omega
    have htq : (W : ℚ) * (1 / 2) = ((a : ℕ) : ℚ) := by
      rw [hWa]
      push_cast
      ring
    have hiff : ∀ c : ℕ, ((c : ℚ) ≤ (W : ℚ) * (1 / 2) ↔ c ≤ a) := by
      intro c
      rw [htq, Nat.cast_le]
    have hss : np_searchsorted (C.map (Nat.cast : ℕ → ℚ)) ((W : ℚ) * (1 / 2)) =
        cntLe C a := np_searchsorted_cast_cntLe C hClt _ a hiff
    have hidx : sqIndex P (1 / 2) = cntLe C a := by
      rw [sqIndex, hcum, htarget, hss]
    set i := cntLe C a with hi
    have hik : i < C.length := cntLe_lt_length C a ⟨W, hWC, by omega⟩
    have hgetDa : (expandPairs NP).getD a 0 = (NP.map Prod.fst).getD i 0 := by
      rw [expandPairs_getD NP hNPpos a (by rw [hNPsum]; omega), ← hC]
    by_cases hain : a ∈ C
    · have hi1 : 1 ≤ i := cntLe_pos C a ⟨a, hain, le_refl a⟩
      obtain ⟨j, hj, hja⟩ := List.mem_iff_getElem.mp hain
      have hij : i = j + 1 := cntLe_eq_succ_of_getElem C hClt a j hj hja
      have hcprev : C.getD (i - 1) 0 = a := by
        rw [hij, Nat.add_sub_cancel, List.getD_eq_getElem C 0 hj, hja]
      have hsplit : cntLe C (a - 1) = i - 1 := by
        have := cntLe_succ_split C a ha1 hCnd
        rw [if_pos hain] at this
        omega
      have hgetDa1 : (expandPairs NP).getD (a - 1) 0 =
          (NP.map Prod.fst).getD (i - 1) 0 := by
        rw [expandPairs_getD NP hNPpos (a - 1) (by rw [hNPsum]; omega), ← hC, hsplit]
      have hbt : boundaryTest P (1 / 2) = true := by
        rw [boundaryTest, hidx, hcum, getD_map_cast, hcprev, htarget, htq]
        exact np_isclose_self _
      rw [stackedResult, hidx, hsv]
      rw [if_neg (by omega), if_neg (by rw [hlen2]; omega), if_pos hbt]
      rw [hgetDa, hgetDa1]
    · have hsplit : cntLe C (a - 1) = i := by
        have := cntLe_succ_split C a ha1 hCnd
        rw [if_neg hain] at this
        omega
      have hgetDa1 : (expandPairs NP).getD (a - 1) 0 =
          (NP.map Prod.fst).getD i 0 := by
        rw [expandPairs_getD NP hNPpos (a - 1) (by rw [hNPsum]; omega), ← hC, hsplit]
      have hres : stackedResult P (1 / 2) = (NP.map Prod.fst).getD i 0 := by
        rw [stackedResult, hidx, hsv]
        by_cases hi0 : i = 0
        · rw [if_pos hi0, hi0]
        · rw [if_neg hi0, if_neg (by rw [hlen2]; omega)]
          have hcprev_mem : C.getD (i - 1) 0 ∈ C := getD_mem C 0 _ (by omega)
          have hcprev_le : C.getD (i - 1) 0 ≤ a := by
            have h1 := np_searchsorted_getD_le (C.map (Nat.cast : ℕ → ℚ))
              ((W : ℚ) * (1 / 2)) (by rw [hss]; omega)
            rw [hss, getD_map_cast] at h1
            exact (hiff _).mp h1
          have hcprev_ne : C.getD (i - 1) 0 ≠ a := fun h => hain (h ▸ hcprev_mem)
          have hbt : boundaryTest P (1 / 2) = false := by
            rw [boundaryTest, hidx, hcum, getD_map_cast, htarget]
            apply np_isclose_false_of_gap
            · rw [htq]
              positivity
            · rw [htq]
              have hab : a ≤ 50000000 := by omega
              exact_mod_cast hab
            · rw [htq, le_abs]
              right
              have hle : C.getD (i - 1) 0 ≤ a - 1 := by omega
              have hcle : ((C.getD (i - 1) 0 : ℕ) : ℚ) ≤ ((a - 1 : ℕ) : ℚ) :=
                Nat.cast_le.mpr hle
              have ha' : ((a - 1 : ℕ) : ℚ) = (a : ℚ) - 1 := by
                push_cast [ha1]
                ring
              rw [ha'] at hcle
              linarith
          have hbt2 : ¬(boundaryTest P (1 / 2) = true) := by
            rw [hbt]
            simp
          rw [if_neg hbt2]
      rw [hres, hgetDa, hgetDa1]
      ring
  · -- odd total weight
    rw [if_pos hpar]
    set a := W / 2 with ha
    have hWa : W = 2 * a + 1 := by omega
    have hiff : ∀ c : ℕ, ((c : ℚ) ≤ (W : ℚ) * (1 / 2) ↔ c ≤ a) := by
      intro c
      rw [show (W : ℚ) * (1 / 2) = (W : ℚ) / 2 by ring,
        le_div_iff (by norm_num : (0 : ℚ) < 2),
        show ((c : ℚ) * 2) = ((c * 2 : ℕ) : ℚ) by push_cast; ring, Nat.cast_le]
      omega
    have hss : np_searchsorted (C.map (Nat.cast : ℕ → ℚ)) ((W : ℚ) * (1 / 2)) =
        cntLe C a := np_searchsorted_cast_cntLe C hClt _ a hiff
    have hidx : sqIndex P (1 / 2) = cntLe C a := by
      rw [sqIndex, hcum, htarget, hss]
    set i := cntLe C a with hi
    have hik : i < C.length := cntLe_lt_length C a ⟨W, hWC, by omega⟩
    have hgetDa : (expandPairs NP).getD a 0 = (NP.map Prod.fst).getD i 0 := by
      rw [expandPairs_getD NP hNPpos a (by rw [hNPsum]; omega), ← hC]
    have hres : stackedResult P (1 / 2) = (NP.map Prod.fst).getD i 0 := by
      rw [stackedResult, hidx, hsv]
      by_cases hi0 : i = 0
      · rw [if_pos hi0, hi0]
      · rw [if_neg hi0, if_neg (by rw [hlen2]; omega)]
        have hcprev_le : C.getD (i - 1) 0 ≤ a := by
          have h1 := np_searchsorted_getD_le (C.map (Nat.cast : ℕ → ℚ))
            ((W : ℚ) * (1 / 2)) (by rw [hss]; omega)
          rw [hss, getD_map_cast] at h1
          exact (hiff _).mp h1
        have hbt : boundaryTest P (1 / 2) = false := by
          rw [boundaryTest, hidx, hcum, getD_map_cast, htarget]
          apply np_isclose_false_of_gap
          · positivity
          · have : (W : ℚ) ≤ 100000000 := hWQ
            linarith
          · rw [le_abs]
            right
            have hcle : ((C.getD (i - 1) 0 : ℕ) : ℚ) ≤ (a : ℚ) :=
              Nat.cast_le.mpr hcprev_le
            have hWc : (W : ℚ) = 2 * (a : ℚ) + 1 := by
              rw [hWa]
              push_cast
              ring
            rw [hWc]
            linarith
        have hbt2 : ¬(boundaryTest P (1 / 2) = true) := by
          rw [hbt]
          simp
        rw [if_neg hbt2]
    rw [hres, hgetDa]


/-- C1 counterexample: with weights 999999999 and 1000000001 on values 1
and 2, every element past position 999999998 of the expanded multiset is
a 2, so the unweighted median is 2; but the engine's 1e-9-relative
tolerance sees the cumulative boundary 999999999 as "close" to the target
10⁹ and returns the average 3/2. -/
theorem C1_counterexample :
    (∀ x ∈ ([999999999, 1000000001] : List ℕ), 0 < x) ∧
    get_stacked_quantile (.vec [1, 2])
        (.vec (([999999999, 1000000001] : List ℕ).map (Nat.cast : ℕ → ℚ)))
        (1 / 2) = .ok (3 / 2) ∧
    unweightedMedian (repeatByWeights [1, 2] [999999999, 1000000001]) = 2 ∧
    ((3 : ℚ) / 2) ≠ 2 := by
  refine ⟨fun x hx => by rcases List.mem_pair.mp hx with rfl | rfl <;> norm_num,
    ?_, ?_, by norm_num⟩
  · have hmap : ([999999999, 1000000001] : List ℕ).map (Nat.cast : ℕ → ℚ) =
        [999999999, 1000000001] := by
      simp
    rw [hmap]
    have hfb : fallbackWeights [999999999, 1000000001] =
        [999999999, 1000000001] := by
      rw [fallbackWeights, if_neg]
      simp
    have hr := get_stacked_quantile_ok [1, 2] [999999999, 1000000001] (1 / 2)
      (by norm_num) (by norm_num) (by simp) (by simp)
      (fun x hx => by rcases List.mem_pair.mp hx with rfl | rfl <;> norm_num)
    rw [hfb, survivingPairs_pair 1 2 _ _ (by norm_num) (by norm_num),
      stackedResult_pair 1 2 _ _ _ (by norm_num)] at hr
    rw [hr]
    have hss : np_searchsorted [(999999999 : ℚ), 999999999 + 1000000001]
        ((999999999 + 1000000001) * (1 / 2)) = 1 := by
      rw [np_searchsorted, if_pos (by norm_num), np_searchsorted,
        if_neg (by norm_num)]
    rw [hss, if_neg (by omega), if_neg (by omega), if_pos]
    · norm_num
    · show decide _ = true
      rw [decide_eq_true_eq,
        show (999999999 : ℚ) - (999999999 + 1000000001) * (1 / 2) = -1 by ring,
        abs_of_nonpos (by norm_num), abs_of_nonneg (by norm_num)]
      norm_num
  · have hexp : repeatByWeights [1, 2] [999999999, 1000000001] =
        List.replicate 999999999 1 ++ List.replicate 1000000001 2 := by
      rw [repeatByWeights,
        show ([(1 : ℚ), 2].zip ([999999999, 1000000001] : List ℕ)) =
          [((1 : ℚ), (999999999 : ℕ)), (2, 1000000001)] from rfl,
        List.flatMap_cons, List.flatMap_cons, List.flatMap_nil, List.append_nil]
    have hsorted : List.Sorted (· ≤ ·)
        (List.replicate 999999999 (1 : ℚ) ++ List.replicate 1000000001 2) := by
      rw [List.Sorted, List.pairwise_append]
      refine ⟨List.pairwise_replicate.mpr (Or.inr (le_refl _)),
        List.pairwise_replicate.mpr (Or.inr (le_refl _)), ?_⟩
      intro x hx y hy
      rw [List.eq_of_mem_replicate hx, List.eq_of_mem_replicate hy]
      norm_num
    have hins : List.insertionSort (· ≤ ·)
        (List.replicate 999999999 (1 : ℚ) ++ List.replicate 1000000001 2) =
        List.replicate 999999999 (1 : ℚ) ++ List.replicate 1000000001 2 :=
      List.eq_of_perm_of_sorted (List.perm_insertionSort _ _)
        (List.sorted_insertionSort _ _) hsorted
    rw [unweightedMedian, hexp, hins, List.length_append, List.length_replicate,
      List.length_replicate,
      show (999999999 : ℕ) + 1000000001 = 2000000000 by norm_num,
      if_neg (by norm_num),
      show (2000000000 : ℕ) / 2 - 1 = 999999999 by norm_num,
      show (2000000000 : ℕ) / 2 = 1000000000 by norm_num,
      List.getD_append_right _ _ _ _ (by rw [List.length_replicate]),
      List.getD_append_right _ _ _ _ (by rw [List.length_replicate]; norm_num),
      List.length_replicate,
      show (999999999 : ℕ) - 999999999 = 0 by norm_num,
      show (1000000000 : ℕ) - 999999999 = 1 by norm_num,
      getD_replicate _ _ _ (by norm_num), getD_replicate _ _ _ (by norm_num)]
    norm_num

/-- C1 witness: values [5, 3] with weights [1, 2] — the stacked median is
the median of the multiset (5, 3, 3). -/
theorem C1_integer_weight_median_witness :
    (([(5 : ℚ), 3]) ≠ [] ∧ ([(5 : ℚ), 3]).length = ([1, 2] : List ℕ).length ∧
      (∀ x ∈ ([1, 2] : List ℕ), 0 < x) ∧ ([1, 2] : List ℕ).sum ≤ 100000000) ∧
    get_stacked_quantile (.vec [5, 3])
        (.vec (([1, 2] : List ℕ).map (Nat.cast : ℕ → ℚ))) (1 / 2) =
      .ok (unweightedMedian (repeatByWeights [5, 3] [1, 2])) :=
  ⟨⟨by simp, by simp,
      fun x hx => by rcases List.mem_pair.mp hx with rfl | rfl <;> norm_num,
      by decide⟩,
    C1_integer_weight_median [5, 3] [1, 2] (by simp) (by simp)
      (fun x hx => by rcases List.mem_pair.mp hx with rfl | rfl <;> norm_num)
      (by decide)⟩

